import Mathlib

/-!
Shallow embedding of `src/text_splitter/v4.py`: the separator-weight
classifier, the recursive weighted splitter `split_by_weight`, the chunk
packing optimizer `optimize_chunks`, and the top-level entry point
`split_text_into_chunks`.

Modelling conventions:
* Text is `List Char`; a chunk is `(start_index, chunk_text)` exactly as in
  the Python code (`List (Nat × List Char)`).
* The tokenizer is a parameter `tok : List Char → Nat` giving the
  (untruncated) token count of a segment; `get_token_count` applies the
  HuggingFace truncation of the source (`truncation=True,
  max_length=max_tokens+1`), i.e. caps the count at `max_tokens + 1`.
* The two `raise ValueError` sites of the source are modelled as the two
  constructors of `Err`: the `max_tokens` precondition check
  (`Err.configuration`, the spec's `ConfigurationError`) and the
  cannot-split failure (`Err.unsplittable`, the spec's
  `UnsplittableSegmentError`); fallible code returns `Except Err _`.
* Python `while` loops become structural recursions: the scanning loop of
  `split_by_weight` recurses on the unscanned suffix `rest` (the loop
  variable `i` strictly advances), with `pending` holding
  `text[current_pos:i]`; the optimizer loop recurses on an explicit fuel
  initialized to the chunk-list length, which bounds its iteration count
  because every iteration consumes at least one chunk of the list.
-/

namespace TextSplitterV4

/-- A chunk as in the source: `(start_index, chunk_text)`. -/
abbrev Chunk := Nat × List Char

abbrev Chunks := List Chunk

/-- External tokenizer capability: untruncated token count of a segment. -/
abbrev Tok := List Char → Nat

/-- The two failure modes of `split_text_into_chunks` (two distinct
`raise ValueError` sites in the source; the spec names them
`ConfigurationError` and `UnsplittableSegmentError`). -/
inductive Err where
  | configuration
  | unsplittable
deriving DecidableEq, Repr

/-- Separator weight constants, from `WEIGHTS = (4, 3, 2, 1, 0)`. -/
def PARAGRAPH_SEPARATOR_WEIGHT : Nat := 4

def SENTENCE_TERMINATOR_WEIGHT : Nat := 3

def OTHER_PUNCTUATION_WEIGHT : Nat := 2

def SPACE_WEIGHT : Nat := 1

def NO_WEIGHT : Nat := 0

/-- The character classifier `get_weight` of the source.  The source tests
the Unicode regexes `[\n\r]|\p{Zl}|\p{Zp}`, `\p{STerm}`, `\p{Po}`, `\p{Zs}`
in that order; here the Unicode general-category tables are transcribed for
the full ASCII range plus the non-ASCII separator code points relevant to
those classes that appear in this development (`Zl`/`Zp` line and paragraph
separators, common `Zs` spaces, common CJK sentence terminators).  All
remaining code points classify as `NO_WEIGHT`. -/
def get_weight (c : Char) : Nat :=
  let n := c.toNat
  if n = 10 ∨ n = 13 ∨ n = 0x2028 ∨ n = 0x2029 then
    PARAGRAPH_SEPARATOR_WEIGHT
  else if n = 33 ∨ n = 46 ∨ n = 63 ∨ n = 0x203C ∨ n = 0x203D ∨ n = 0x2047 ∨
      n = 0x2048 ∨ n = 0x2049 ∨ n = 0x3002 ∨ n = 0xFF01 ∨ n = 0xFF0E ∨
      n = 0xFF1F then
    SENTENCE_TERMINATOR_WEIGHT
  else if n = 34 ∨ n = 35 ∨ n = 37 ∨ n = 38 ∨ n = 39 ∨ n = 42 ∨ n = 44 ∨
      n = 47 ∨ n = 58 ∨ n = 59 ∨ n = 64 ∨ n = 92 ∨ n = 0x3001 ∨
      n = 0xFF0C ∨ n = 0xFF1A ∨ n = 0xFF1B then
    OTHER_PUNCTUATION_WEIGHT
  else if n = 32 ∨ n = 0xA0 ∨ n = 0x1680 ∨ (0x2000 ≤ n ∧ n ≤ 0x200A) ∨
      n = 0x202F ∨ n = 0x205F ∨ n = 0x3000 then
    SPACE_WEIGHT
  else
    NO_WEIGHT

/-- The inner `get_token_count` of the source: the length of
`tokenizer.encode(segment, add_special_tokens=True, truncation=True,
max_length=max_tokens + 1)`.  Truncation caps the count at
`max_tokens + 1`, so the modelled count is `min (tok segment)
(max_tokens + 1)`. -/
def get_token_count (tok : Tok) (M : Nat) (segment : List Char) : Nat :=
  min (tok segment) (M + 1)

/-- Flushing the accumulated current chunk (`if current_chunk:` followed by
appending `(current_chunk_start, "".join(current_chunk))`): the resulting
emitted-chunk list. -/
def flushChunks (chunks : Chunks) (curStart : Nat) (cur : List Char) :
    Chunks :=
  if cur = [] then chunks else chunks ++ [(curStart, cur)]

/-- Flushing the accumulated current chunk: the updated
`current_chunk_start` (advanced by the flushed chunk's length). -/
def flushStart (curStart : Nat) (cur : List Char) : Nat :=
  if cur = [] then curStart else curStart + cur.length

/-- The scanning loop of `split_by_weight` (the `while i < len(text)` loop
plus the trailing-text handling after it).  State:
* `rest` — the unscanned suffix `text[i:]`;
* `pending` — the partial segment `text[current_pos:i]` accumulated since
  the last separator;
* `chunks` — chunks emitted so far;
* `cur` — the joined `current_chunk`;
* `curTok` — `current_chunk_tokens` (the running SUM of the accepted
  segments' token counts, exactly as in the source — not the token count of
  `cur` itself);
* `curStart` — `current_chunk_start`.

`recurse` is the lower-weight splitter used at the two
`split_by_weight(segment, weight - 1, ...)` call sites; the guard
`0 < weight` in both call sites (Python `weight > NO_WEIGHT`) ensures it is
only invoked when the weight level is above `NONE`. -/
def sbwLoop (tok : Tok) (M : Nat) (weight : Nat)
    (recurse : List Char → Nat → Except Err Chunks) :
    List Char → List Char → Chunks → List Char → Nat → Nat →
      Except Err Chunks
  | [], pending, chunks, cur, curTok, curStart =>
    if pending = [] then
      Except.ok (flushChunks chunks curStart cur)
    else
      let remTokens := get_token_count tok M pending
      if curTok + remTokens ≤ M then
        Except.ok (chunks ++ [(curStart, cur ++ pending)])
      else
        let chunks1 := flushChunks chunks curStart cur
        let start1 := flushStart curStart cur
        if remTokens > M ∧ 0 < weight then
          match recurse pending start1 with
          | Except.error e => Except.error e
          | Except.ok sub => Except.ok (chunks1 ++ sub)
        else if remTokens ≤ M then
          Except.ok (chunks1 ++ [(start1, pending)])
        else
          Except.error Err.unsplittable
  | c :: rest, pending, chunks, cur, curTok, curStart =>
    if get_weight c ≥ weight then
      let segment := pending ++ [c]
      let segTokens := get_token_count tok M segment
      if curTok + segTokens ≤ M then
        sbwLoop tok M weight recurse rest [] chunks (cur ++ segment)
          (curTok + segTokens) curStart
      else
        let chunks1 := flushChunks chunks curStart cur
        let start1 := flushStart curStart cur
        if segTokens > M ∧ 0 < weight then
          match recurse segment start1 with
          | Except.error e => Except.error e
          | Except.ok sub =>
            sbwLoop tok M weight recurse rest [] (chunks1 ++ sub) [] 0
              (start1 + segment.length)
        else if segTokens ≤ M then
          sbwLoop tok M weight recurse rest [] chunks1 segment segTokens
            start1
        else
          Except.error Err.unsplittable
    else
      sbwLoop tok M weight recurse rest (pending ++ [c]) chunks cur curTok
        curStart

/-- The recursive weighted splitter `split_by_weight(text, weight,
start_idx)` of the source, by structural recursion on the weight level.
At weight `0` the recursion guard `weight > NO_WEIGHT` is always false, so
the `recurse` argument handed to the loop is never invoked there (an
arbitrary function is passed). -/
def split_by_weight (tok : Tok) (M : Nat) :
    Nat → List Char → Nat → Except Err Chunks
  | 0 => fun text start =>
    sbwLoop tok M 0 (fun _ _ => Except.error Err.unsplittable) text [] [] []
      0 start
  | w + 1 => fun text start =>
    sbwLoop tok M (w + 1) (split_by_weight tok M w) text [] [] [] 0 start

/-- Validity of a redistribution split of chunk text `cur` (with successor
text `next`) at position `p`: both `current_text[:split_pos]` and
`current_text[split_pos:] + next_text` satisfy the token budget (the two
`get_token_count ... <= max_tokens` checks of `optimize_chunks`). -/
def validSplit (tok : Tok) (M : Nat) (cur next : List Char) (p : Nat) :
    Bool :=
  decide (get_token_count tok M (cur.take p) ≤ M) &&
    decide (get_token_count tok M (cur.drop p ++ next) ≤ M)

/-- The backward scan `for j in range(len(current_text) - 1, 0, -1)` of
`optimize_chunks`.  The argument `j` is the next character index to
examine; the scan stops before index `0`.  `best`/`bestW` are
`best_split_idx` and `best_split_weight` (`bestW : Int` because the source
initializes `best_split_weight = -1`).  A position is recorded only when
its character's weight strictly exceeds `bestW`, `split_pos = j + 1` does
not exceed the text length, and both resulting pieces satisfy the
budget. -/
def bestSplitGo (tok : Tok) (M : Nat) (cur next : List Char) :
    Nat → Option Nat → Int → Option Nat
  | 0, best, _ => best
  | j + 1, best, bestW =>
    let cw : Int := get_weight (cur.getD (j + 1) 'a')
    if cw > bestW then
      let p := j + 2
      if p ≤ cur.length then
        if validSplit tok M cur next p then
          bestSplitGo tok M cur next j (some p) cw
        else
          bestSplitGo tok M cur next j best bestW
      else
        bestSplitGo tok M cur next j best bestW
    else
      bestSplitGo tok M cur next j best bestW

/-- The redistribution-split search of `optimize_chunks`: scan character
indices `len(current_text)-1, ..., 1` backward and return the recorded
`best_split_idx` (if any). -/
def bestSplit (tok : Tok) (M : Nat) (cur next : List Char) : Option Nat :=
  bestSplitGo tok M cur next (cur.length - 1) none (-1)

/-- The `while i < len(chunks) - 1` loop of `optimize_chunks`, including
the trailing `if i < len(chunks): optimized.append(chunks[i])`.  The list
argument is the still-unprocessed suffix `chunks[i:]` (the source mutates
`chunks[i + 1]` in the redistribution case; here the mutated successor
heads the recursive call's list).  `fuel` bounds the iteration count; every
iteration removes at least one chunk from the list, so fuel equal to the
list length suffices and the fuel-exhausted branch is unreachable from
`optimize_chunks`. -/
def optLoop (tok : Tok) (M : Nat) : Nat → Chunks → Chunks
  | _, [] => []
  | _, [c] => [c]
  | 0, cs => cs
  | fuel + 1, (s1, t1) :: (s2, t2) :: tl =>
    if get_token_count tok M (t1 ++ t2) ≤ M then
      (s1, t1 ++ t2) :: optLoop tok M fuel tl
    else
      match bestSplit tok M t1 t2 with
      | some p =>
        (s1, t1.take p) :: optLoop tok M fuel ((s1 + p, t1.drop p ++ t2) :: tl)
      | none => (s1, t1) :: optLoop tok M fuel ((s2, t2) :: tl)

/-- Python whitespace, as stripped by `str.strip()` with no argument
(characters for which `str.isspace()` holds). -/
def isPySpace (c : Char) : Bool :=
  let n := c.toNat
  decide ((9 ≤ n ∧ n ≤ 13) ∨ (28 ≤ n ∧ n ≤ 32) ∨ n = 0x85 ∨ n = 0xA0 ∨
    n = 0x1680 ∨ (0x2000 ≤ n ∧ n ≤ 0x200A) ∨ n = 0x2028 ∨ n = 0x2029 ∨
    n = 0x202F ∨ n = 0x205F ∨ n = 0x3000)

/-- The test `optimized[-1][1].strip() == ""` of the source: every
character of the text is Python whitespace. -/
def pyStripEmpty (l : List Char) : Bool :=
  l.all isPySpace

/-- The chunk packing optimizer `optimize_chunks` of the source: early
return for at most one chunk, the merge/redistribute loop, then the final
pop of a whitespace-only last chunk. -/
def optimize_chunks (tok : Tok) (M : Nat) (chunks : Chunks) : Chunks :=
  if chunks.length ≤ 1 then chunks
  else
    let optimized := optLoop tok M chunks.length chunks
    match optimized.getLast? with
    | some c =>
      if pyStripEmpty c.2 then optimized.dropLast else optimized
    | none => optimized

/-- The top-level `split_text_into_chunks(text, tokenizer, max_tokens)`:
reject `max_tokens <= 0` (the source also rejects non-`int` values, which
the `Int` type already excludes), run the splitter at
`PARAGRAPH_SEPARATOR_WEIGHT`, then the optimizer. -/
def split_text_into_chunks (tok : Tok) (max_tokens : Int)
    (text : List Char) : Except Err Chunks :=
  if max_tokens ≤ 0 then Except.error Err.configuration
  else
    let M := max_tokens.toNat
    match split_by_weight tok M PARAGRAPH_SEPARATOR_WEIGHT text 0 with
    | Except.error e => Except.error e
    | Except.ok chunks => Except.ok (optimize_chunks tok M chunks)

/-- Concatenation of the text fields of a chunk list, in order. -/
def concatTexts : Chunks → List Char
  | [] => []
  | c :: tl => c.2 ++ concatTexts tl

/-- Contiguity from a base offset: the first chunk starts at `b` and each
subsequent chunk starts where the previous one ends. -/
def chainFrom : Nat → Chunks → Bool
  | _, [] => true
  | b, (s, t) :: tl => s == b && chainFrom (s + t.length) tl

/-- The offset one past the end of the last chunk (or `b` for no
chunks). -/
def nextStart : Nat → Chunks → Nat
  | b, [] => b
  | _, (s, t) :: tl => nextStart (s + t.length) tl

/-- Fuel-explicit variant of `sbwLoop`, identical except that the
lower-weight splitter may report fuel exhaustion (`none`). -/
def sbwLoopF (tok : Tok) (M : Nat) (weight : Nat)
    (recurse : List Char → Nat → Option (Except Err Chunks)) :
    List Char → List Char → Chunks → List Char → Nat → Nat →
      Option (Except Err Chunks)
  | [], pending, chunks, cur, curTok, curStart =>
    if pending = [] then
      some (Except.ok (flushChunks chunks curStart cur))
    else
      let remTokens := get_token_count tok M pending
      if curTok + remTokens ≤ M then
        some (Except.ok (chunks ++ [(curStart, cur ++ pending)]))
      else
        let chunks1 := flushChunks chunks curStart cur
        let start1 := flushStart curStart cur
        if remTokens > M ∧ 0 < weight then
          match recurse pending start1 with
          | none => none
          | some (Except.error e) => some (Except.error e)
          | some (Except.ok sub) => some (Except.ok (chunks1 ++ sub))
        else if remTokens ≤ M then
          some (Except.ok (chunks1 ++ [(start1, pending)]))
        else
          some (Except.error Err.unsplittable)
  | c :: rest, pending, chunks, cur, curTok, curStart =>
    if get_weight c ≥ weight then
      let segment := pending ++ [c]
      let segTokens := get_token_count tok M segment
      if curTok + segTokens ≤ M then
        sbwLoopF tok M weight recurse rest [] chunks (cur ++ segment)
          (curTok + segTokens) curStart
      else
        let chunks1 := flushChunks chunks curStart cur
        let start1 := flushStart curStart cur
        if segTokens > M ∧ 0 < weight then
          match recurse segment start1 with
          | none => none
          | some (Except.error e) => some (Except.error e)
          | some (Except.ok sub) =>
            sbwLoopF tok M weight recurse rest [] (chunks1 ++ sub) [] 0
              (start1 + segment.length)
        else if segTokens ≤ M then
          sbwLoopF tok M weight recurse rest [] chunks1 segment segTokens
            start1
        else
          some (Except.error Err.unsplittable)
    else
      sbwLoopF tok M weight recurse rest (pending ++ [c]) chunks cur curTok
        curStart

/-- Recursion-depth-fueled variant of `split_by_weight`: the recursion into
the next-lower weight level consumes one unit of fuel, and fuel exhaustion
yields `none`.  `split_by_weight_fuel fuel w` equals `split_by_weight w`
whenever `w < fuel` (theorem `split_by_weight_fuel_eq` below), which makes
the bound "recursion depth ≤ number of weight levels" explicit. -/
def split_by_weight_fuel (tok : Tok) (M : Nat) :
    Nat → Nat → List Char → Nat → Option (Except Err Chunks)
  | 0, _, _, _ => none
  | fuel + 1, weight, text, start =>
    sbwLoopF tok M weight
      (fun t s => split_by_weight_fuel tok M fuel (weight - 1) t s) text []
      [] [] 0 start

/-- Concrete tokenizer instance: one token per character (a deterministic
tokenizer with no special tokens). -/
def lenTok : Tok := List.length

/-- Concrete deterministic tokenizer that counts `"ab"` as 3 tokens but
each of `"a"`, `"b"` as 1 token (a super-additive count, as a byte-pair
tokenizer may produce); used to separate "sum of accepted segment counts"
from "token count of the joined chunk text". -/
def tokAB : Tok := fun l => if l = ['a', 'b'] then 3 else l.length

/-- Concrete deterministic tokenizer under which, for chunk texts
`"ab"`/`"c"` and budget 2, the only redistribution split position with both
pieces inside the budget is position 1. -/
def tokABC : Tok := fun l =>
  if l = ['a', 'b'] then 3
  else if l = ['b', 'c'] then 2
  else if l = ['a', 'b', 'c'] then 5
  else l.length

/-- Concrete deterministic tokenizer charging three tokens per character
(as a tokenizer with per-call special tokens may); makes a single character
exceed small budgets. -/
def bigTok : Tok := fun l => 3 * l.length

/-- Dominance order used by the optimizer's backward scan: position `q` is
no better than `p` when `p` has a strictly higher separator weight (the
weight of the character ending the first piece), or equal weight and `p` at
least as close to the end. -/
def splitLe (cur : List Char) (q p : Nat) : Prop :=
  get_weight (cur.getD (q - 1) 'a') < get_weight (cur.getD (p - 1) 'a') ∨
    (get_weight (cur.getD (q - 1) 'a') =
      get_weight (cur.getD (p - 1) 'a') ∧ q ≤ p)

/-! ## Helper lemmas: concatenation, contiguity, flushing -/

theorem concatTexts_append (xs ys : Chunks) :
    concatTexts (xs ++ ys) = concatTexts xs ++ concatTexts ys := by
  induction xs with
  | nil => rfl
  | cons c tl ih => simp [concatTexts, ih]

theorem nextStart_append (b : Nat) (xs ys : Chunks) :
    nextStart b (xs ++ ys) = nextStart (nextStart b xs) ys := by
  induction xs generalizing b with
  | nil => simp [nextStart]
  | cons c tl ih => obtain ⟨s, t⟩ := c; simp [nextStart, ih]

theorem chainFrom_append {b : Nat} {xs ys : Chunks}
    (hx : chainFrom b xs = true)
    (hy : chainFrom (nextStart b xs) ys = true) :
    chainFrom b (xs ++ ys) = true := by
  induction xs generalizing b with
  | nil => simpa [nextStart] using hy
  | cons c tl ih =>
    obtain ⟨s, t⟩ := c
    simp only [chainFrom, Bool.and_eq_true, beq_iff_eq] at hx ⊢
    refine ⟨hx.1, ih hx.2 ?_⟩
    simpa [nextStart] using hy

theorem chainFrom_of_append {b : Nat} {xs ys : Chunks}
    (h : chainFrom b (xs ++ ys) = true) : chainFrom b xs = true := by
  induction xs generalizing b with
  | nil => simp [chainFrom]
  | cons c tl ih =>
    obtain ⟨s, t⟩ := c
    simp only [List.cons_append, chainFrom, Bool.and_eq_true,
      beq_iff_eq] at h ⊢
    exact ⟨h.1, ih h.2⟩

theorem nextStart_eq {b : Nat} {cs : Chunks} (h : chainFrom b cs = true) :
    nextStart b cs = b + (concatTexts cs).length := by
  induction cs generalizing b with
  | nil => simp [nextStart, concatTexts]
  | cons c tl ih =>
    obtain ⟨s, t⟩ := c
    simp only [chainFrom, Bool.and_eq_true, beq_iff_eq] at h
    obtain ⟨rfl, h2⟩ := h
    simp only [nextStart, concatTexts, List.length_append, ih h2]
    omega

theorem chain_le {b : Nat} {cs : Chunks} (h : chainFrom b cs = true) :
    ∀ ch ∈ cs, b ≤ ch.1 := by
  induction cs generalizing b with
  | nil => simp
  | cons c tl ih =>
    obtain ⟨s, t⟩ := c
    simp only [chainFrom, Bool.and_eq_true, beq_iff_eq] at h
    intro ch hch
    rcases List.mem_cons.mp hch with rfl | hmem
    · exact le_of_eq h.1.symm
    · calc b = s := h.1.symm
        _ ≤ s + t.length := Nat.le_add_right _ _
        _ ≤ ch.1 := ih h.2 ch hmem

theorem chain_pairwise {b : Nat} {cs : Chunks}
    (h : chainFrom b cs = true) (hne : ∀ ch ∈ cs, ch.2 ≠ []) :
    cs.Pairwise (fun x y => x.1 < y.1) := by
  induction cs generalizing b with
  | nil => exact List.Pairwise.nil
  | cons c tl ih =>
    obtain ⟨s, t⟩ := c
    simp only [chainFrom, Bool.and_eq_true, beq_iff_eq] at h
    refine List.Pairwise.cons ?_ (ih h.2 fun ch hch => hne ch (by simp [hch]))
    intro ch hch
    have ht : t ≠ [] := hne (s, t) (by simp)
    have : s + t.length ≤ ch.1 := chain_le h.2 ch hch
    have : 0 < t.length := List.length_pos.mpr ht
    omega

theorem concat_flushChunks (chunks : Chunks) (s : Nat) (cur : List Char) :
    concatTexts (flushChunks chunks s cur) = concatTexts chunks ++ cur := by
  unfold flushChunks
  split
  · simp [*]
  · simp [concatTexts_append, concatTexts]

theorem chain_flushChunks {b : Nat} {chunks : Chunks} {s : Nat}
    (cur : List Char) (hch : chainFrom b chunks = true)
    (hns : nextStart b chunks = s) :
    chainFrom b (flushChunks chunks s cur) = true := by
  unfold flushChunks
  split
  · exact hch
  · exact chainFrom_append hch (by simp [chainFrom, hns])

theorem nextStart_flushChunks {b : Nat} {chunks : Chunks} {s : Nat}
    (cur : List Char) (hns : nextStart b chunks = s) :
    nextStart b (flushChunks chunks s cur) = flushStart s cur := by
  unfold flushChunks flushStart
  split
  · simpa using hns
  · simp [nextStart_append, nextStart, hns]

theorem mem_flushChunks {ch : Chunk} {chunks : Chunks} {s : Nat}
    {cur : List Char} (h : ch ∈ flushChunks chunks s cur) :
    ch ∈ chunks ∨ (cur ≠ [] ∧ ch = (s, cur)) := by
  unfold flushChunks at h
  split at h
  · exact Or.inl h
  · rcases List.mem_append.mp h with hmem | hmem
    · exact Or.inl hmem
    · simp only [List.mem_singleton] at hmem
      exact Or.inr ⟨by assumption, hmem⟩

/-! ## Unfolding equations for the splitter loop -/

theorem sbwLoop_nil_eq (tok : Tok) (M weight : Nat)
    (recurse : List Char → Nat → Except Err Chunks)
    (pending : List Char) (chunks : Chunks) (cur : List Char)
    (curTok curStart : Nat) :
    sbwLoop tok M weight recurse [] pending chunks cur curTok curStart =
      if pending = [] then Except.ok (flushChunks chunks curStart cur)
      else if curTok + get_token_count tok M pending ≤ M then
        Except.ok (chunks ++ [(curStart, cur ++ pending)])
      else if get_token_count tok M pending > M ∧ 0 < weight then
        match recurse pending (flushStart curStart cur) with
        | Except.error e => Except.error e
        | Except.ok sub =>
          Except.ok (flushChunks chunks curStart cur ++ sub)
      else if get_token_count tok M pending ≤ M then
        Except.ok (flushChunks chunks curStart cur ++
          [(flushStart curStart cur, pending)])
      else Except.error Err.unsplittable := rfl

theorem sbwLoop_cons_eq (tok : Tok) (M weight : Nat)
    (recurse : List Char → Nat → Except Err Chunks)
    (c : Char) (rest pending : List Char) (chunks : Chunks)
    (cur : List Char) (curTok curStart : Nat) :
    sbwLoop tok M weight recurse (c :: rest) pending chunks cur curTok
        curStart =
      if get_weight c ≥ weight then
        if curTok + get_token_count tok M (pending ++ [c]) ≤ M then
          sbwLoop tok M weight recurse rest [] chunks
            (cur ++ (pending ++ [c]))
            (curTok + get_token_count tok M (pending ++ [c])) curStart
        else if get_token_count tok M (pending ++ [c]) > M ∧ 0 < weight then
          match recurse (pending ++ [c]) (flushStart curStart cur) with
          | Except.error e => Except.error e
          | Except.ok sub =>
            sbwLoop tok M weight recurse rest []
              (flushChunks chunks curStart cur ++ sub) [] 0
              (flushStart curStart cur + (pending ++ [c]).length)
        else if get_token_count tok M (pending ++ [c]) ≤ M then
          sbwLoop tok M weight recurse rest []
            (flushChunks chunks curStart cur) (pending ++ [c])
            (get_token_count tok M (pending ++ [c]))
            (flushStart curStart cur)
        else Except.error Err.unsplittable
      else
        sbwLoop tok M weight recurse rest (pending ++ [c]) chunks cur
          curTok curStart := rfl

/-! ## Splitter invariant: losslessness -/

/-- Loop invariant for losslessness: on success, the emitted chunks'
concatenated texts equal the already-emitted texts, the accumulated current
chunk, the pending partial segment, and the unscanned suffix, in order. -/
theorem sbwLoop_concat {tok : Tok} {M weight : Nat}
    {recurse : List Char → Nat → Except Err Chunks}
    (hrec : ∀ t s out, recurse t s = Except.ok out → concatTexts out = t) :
    ∀ (rest pending : List Char) (chunks : Chunks) (cur : List Char)
      (curTok curStart : Nat) (out : Chunks),
      sbwLoop tok M weight recurse rest pending chunks cur curTok
          curStart = Except.ok out →
      concatTexts out = concatTexts chunks ++ cur ++ pending ++ rest := by
  intro rest
  induction rest with
  | nil =>
    intro pending chunks cur curTok curStart out h
    rw [sbwLoop_nil_eq] at h
    by_cases hp : pending = []
    · rw [if_pos hp] at h
      simp only [Except.ok.injEq] at h
      subst h; subst hp
      simp [concat_flushChunks]
    · rw [if_neg hp] at h
      by_cases hacc : curTok + get_token_count tok M pending ≤ M
      · rw [if_pos hacc] at h
        simp only [Except.ok.injEq] at h
        subst h
        simp [concatTexts_append, concatTexts, List.append_assoc]
      · rw [if_neg hacc] at h
        by_cases hrb : get_token_count tok M pending > M ∧ 0 < weight
        · rw [if_pos hrb] at h
          cases hr : recurse pending (flushStart curStart cur) with
          | error e => rw [hr] at h; cases h
          | ok sub =>
            rw [hr] at h
            simp only [Except.ok.injEq] at h
            subst h
            have hs := hrec _ _ _ hr
            simp [concatTexts_append, concat_flushChunks, hs,
              List.append_assoc]
        · rw [if_neg hrb] at h
          by_cases hle : get_token_count tok M pending ≤ M
          · rw [if_pos hle] at h
            simp only [Except.ok.injEq] at h
            subst h
            simp [concatTexts_append, concat_flushChunks, concatTexts,
              List.append_assoc]
          · rw [if_neg hle] at h; cases h
  | cons c rest ih =>
    intro pending chunks cur curTok curStart out h
    rw [sbwLoop_cons_eq] at h
    by_cases hw : get_weight c ≥ weight
    · rw [if_pos hw] at h
      by_cases hacc : curTok + get_token_count tok M (pending ++ [c]) ≤ M
      · rw [if_pos hacc] at h
        have hi := ih _ _ _ _ _ _ h
        rw [hi]
        simp [List.append_assoc]
      · rw [if_neg hacc] at h
        by_cases hrb :
            get_token_count tok M (pending ++ [c]) > M ∧ 0 < weight
        · rw [if_pos hrb] at h
          cases hr : recurse (pending ++ [c]) (flushStart curStart cur) with
          | error e => rw [hr] at h; cases h
          | ok sub =>
            rw [hr] at h
            have hi := ih _ _ _ _ _ _ h
            have hs := hrec _ _ _ hr
            rw [hi]
            simp [concatTexts_append, concat_flushChunks, hs,
              List.append_assoc]
        · rw [if_neg hrb] at h
          by_cases hle : get_token_count tok M (pending ++ [c]) ≤ M
          · rw [if_pos hle] at h
            have hi := ih _ _ _ _ _ _ h
            rw [hi]
            simp [concat_flushChunks, List.append_assoc]
          · rw [if_neg hle] at h; cases h
    · rw [if_neg hw] at h
      have hi := ih _ _ _ _ _ _ h
      rw [hi]
      simp [List.append_assoc]

/-- Losslessness of the splitter: on success, concatenating the returned
chunk texts in order reproduces the input text exactly, at every weight
level. -/
theorem split_by_weight_concat {tok : Tok} {M : Nat} :
    ∀ (w : Nat) (text : List Char) (start : Nat) (out : Chunks),
      split_by_weight tok M w text start = Except.ok out →
      concatTexts out = text := by
  intro w
  induction w with
  | zero =>
    intro text start out h
    have := @sbwLoop_concat tok M 0
      (fun _ _ => Except.error Err.unsplittable)
      (fun t s o ho => by cases ho) text [] [] [] 0 start out h
    simpa [concatTexts] using this
  | succ w ih =>
    intro text start out h
    have := @sbwLoop_concat tok M (w + 1) (split_by_weight tok M w)
      (fun t s o ho => ih t s o ho) text [] [] [] 0 start out h
    simpa [concatTexts] using this

/-! ## Splitter invariant: contiguity -/

/-- Loop invariant for contiguity: if the already-emitted chunks are
contiguous from base `b` and end exactly at `current_chunk_start`, then on
success the full output is contiguous from `b`. -/
theorem sbwLoop_chain {tok : Tok} {M weight : Nat}
    {recurse : List Char → Nat → Except Err Chunks}
    (hrec : ∀ t s out, recurse t s = Except.ok out →
      chainFrom s out = true ∧ concatTexts out = t) :
    ∀ (rest pending : List Char) (chunks : Chunks) (cur : List Char)
      (curTok curStart : Nat) {b : Nat} (out : Chunks),
      chainFrom b chunks = true → nextStart b chunks = curStart →
      sbwLoop tok M weight recurse rest pending chunks cur curTok
          curStart = Except.ok out →
      chainFrom b out = true := by
  intro rest
  induction rest with
  | nil =>
    intro pending chunks cur curTok curStart b out hch hns h
    rw [sbwLoop_nil_eq] at h
    by_cases hp : pending = []
    · rw [if_pos hp] at h
      simp only [Except.ok.injEq] at h
      subst h
      exact chain_flushChunks cur hch hns
    · rw [if_neg hp] at h
      by_cases hacc : curTok + get_token_count tok M pending ≤ M
      · rw [if_pos hacc] at h
        simp only [Except.ok.injEq] at h
        subst h
        exact chainFrom_append hch (by simp [chainFrom, hns])
      · rw [if_neg hacc] at h
        by_cases hrb : get_token_count tok M pending > M ∧ 0 < weight
        · rw [if_pos hrb] at h
          cases hr : recurse pending (flushStart curStart cur) with
          | error e => rw [hr] at h; cases h
          | ok sub =>
            rw [hr] at h
            simp only [Except.ok.injEq] at h
            subst h
            refine chainFrom_append (chain_flushChunks cur hch hns) ?_
            rw [nextStart_flushChunks cur hns]
            exact (hrec _ _ _ hr).1
        · rw [if_neg hrb] at h
          by_cases hle : get_token_count tok M pending ≤ M
          · rw [if_pos hle] at h
            simp only [Except.ok.injEq] at h
            subst h
            refine chainFrom_append (chain_flushChunks cur hch hns) ?_
            rw [nextStart_flushChunks cur hns]
            simp [chainFrom]
          · rw [if_neg hle] at h; cases h
  | cons c rest ih =>
    intro pending chunks cur curTok curStart b out hch hns h
    rw [sbwLoop_cons_eq] at h
    by_cases hw : get_weight c ≥ weight
    · rw [if_pos hw] at h
      by_cases hacc : curTok + get_token_count tok M (pending ++ [c]) ≤ M
      · rw [if_pos hacc] at h
        exact ih _ _ _ _ _ _ hch hns h
      · rw [if_neg hacc] at h
        by_cases hrb :
            get_token_count tok M (pending ++ [c]) > M ∧ 0 < weight
        · rw [if_pos hrb] at h
          cases hr : recurse (pending ++ [c]) (flushStart curStart cur) with
          | error e => rw [hr] at h; cases h
          | ok sub =>
            rw [hr] at h
            refine ih _ _ _ _ _ _ ?_ ?_ h
            · refine chainFrom_append (chain_flushChunks cur hch hns) ?_
              rw [nextStart_flushChunks cur hns]
              exact (hrec _ _ _ hr).1
            · rw [nextStart_append, nextStart_flushChunks cur hns,
                nextStart_eq (hrec _ _ _ hr).1, (hrec _ _ _ hr).2]
        · rw [if_neg hrb] at h
          by_cases hle : get_token_count tok M (pending ++ [c]) ≤ M
          · rw [if_pos hle] at h
            exact ih _ _ _ _ _ _ (chain_flushChunks cur hch hns)
              (nextStart_flushChunks cur hns) h
          · rw [if_neg hle] at h; cases h
    · rw [if_neg hw] at h
      exact ih _ _ _ _ _ _ hch hns h

/-- Contiguity of the splitter: on success, the returned chunks are
contiguous starting at the supplied start offset, at every weight level. -/
theorem split_by_weight_chain {tok : Tok} {M : Nat} :
    ∀ (w : Nat) (text : List Char) (start : Nat) (out : Chunks),
      split_by_weight tok M w text start = Except.ok out →
      chainFrom start out = true := by
  intro w
  induction w with
  | zero =>
    intro text start out h
    exact sbwLoop_chain (fun t s o ho => by cases ho) text [] [] [] 0
      start out (by simp [chainFrom]) (by simp [nextStart]) h
  | succ w ih =>
    intro text start out h
    exact sbwLoop_chain
      (fun t s o ho => ⟨ih t s o ho, split_by_weight_concat w t s o ho⟩)
      text [] [] [] 0 start out (by simp [chainFrom]) (by simp [nextStart])
      h

/-! ## Splitter invariant: emitted chunks have nonempty text -/

theorem nonempty_flushChunks {chunks : Chunks} {s : Nat} {cur : List Char}
    (hacc : ∀ ch ∈ chunks, ch.2 ≠ []) :
    ∀ ch ∈ flushChunks chunks s cur, ch.2 ≠ [] := by
  intro ch hch
  rcases mem_flushChunks hch with hmem | ⟨hcur, rfl⟩
  · exact hacc ch hmem
  · exact hcur

/-- Loop invariant: every emitted chunk has nonempty text. -/
theorem sbwLoop_nonempty {tok : Tok} {M weight : Nat}
    {recurse : List Char → Nat → Except Err Chunks}
    (hrec : ∀ t s out, recurse t s = Except.ok out →
      ∀ ch ∈ out, ch.2 ≠ []) :
    ∀ (rest pending : List Char) (chunks : Chunks) (cur : List Char)
      (curTok curStart : Nat) (out : Chunks),
      (∀ ch ∈ chunks, ch.2 ≠ []) →
      sbwLoop tok M weight recurse rest pending chunks cur curTok
          curStart = Except.ok out →
      ∀ ch ∈ out, ch.2 ≠ [] := by
  intro rest
  induction rest with
  | nil =>
    intro pending chunks cur curTok curStart out hacc h
    rw [sbwLoop_nil_eq] at h
    by_cases hp : pending = []
    · rw [if_pos hp] at h
      simp only [Except.ok.injEq] at h
      subst h
      exact nonempty_flushChunks hacc
    · rw [if_neg hp] at h
      by_cases haccT : curTok + get_token_count tok M pending ≤ M
      · rw [if_pos haccT] at h
        simp only [Except.ok.injEq] at h
        subst h
        intro ch hch
        rcases List.mem_append.mp hch with hmem | hmem
        · exact hacc ch hmem
        · simp only [List.mem_singleton] at hmem
          subst hmem
          simp [hp]
      · rw [if_neg haccT] at h
        by_cases hrb : get_token_count tok M pending > M ∧ 0 < weight
        · rw [if_pos hrb] at h
          cases hr : recurse pending (flushStart curStart cur) with
          | error e => rw [hr] at h; cases h
          | ok sub =>
            rw [hr] at h
            simp only [Except.ok.injEq] at h
            subst h
            intro ch hch
            rcases List.mem_append.mp hch with hmem | hmem
            · exact nonempty_flushChunks hacc ch hmem
            · exact hrec _ _ _ hr ch hmem
        · rw [if_neg hrb] at h
          by_cases hle : get_token_count tok M pending ≤ M
          · rw [if_pos hle] at h
            simp only [Except.ok.injEq] at h
            subst h
            intro ch hch
            rcases List.mem_append.mp hch with hmem | hmem
            · exact nonempty_flushChunks hacc ch hmem
            · simp only [List.mem_singleton] at hmem
              subst hmem
              exact hp
          · rw [if_neg hle] at h; cases h
  | cons c rest ih =>
    intro pending chunks cur curTok curStart out hacc h
    rw [sbwLoop_cons_eq] at h
    by_cases hw : get_weight c ≥ weight
    · rw [if_pos hw] at h
      by_cases haccT : curTok + get_token_count tok M (pending ++ [c]) ≤ M
      · rw [if_pos haccT] at h
        exact ih _ _ _ _ _ _ hacc h
      · rw [if_neg haccT] at h
        by_cases hrb :
            get_token_count tok M (pending ++ [c]) > M ∧ 0 < weight
        · rw [if_pos hrb] at h
          cases hr : recurse (pending ++ [c]) (flushStart curStart cur) with
          | error e => rw [hr] at h; cases h
          | ok sub =>
            rw [hr] at h
            refine ih _ _ _ _ _ _ ?_ h
            intro ch hch
            rcases List.mem_append.mp hch with hmem | hmem
            · exact nonempty_flushChunks hacc ch hmem
            · exact hrec _ _ _ hr ch hmem
        · rw [if_neg hrb] at h
          by_cases hle : get_token_count tok M (pending ++ [c]) ≤ M
          · rw [if_pos hle] at h
            exact ih _ _ _ _ _ _ (nonempty_flushChunks hacc) h
          · rw [if_neg hle] at h; cases h
    · rw [if_neg hw] at h
      exact ih _ _ _ _ _ _ hacc h

/-- Every chunk returned by the splitter has nonempty text. -/
theorem split_by_weight_nonempty {tok : Tok} {M : Nat} :
    ∀ (w : Nat) (text : List Char) (start : Nat) (out : Chunks),
      split_by_weight tok M w text start = Except.ok out →
      ∀ ch ∈ out, ch.2 ≠ [] := by
  intro w
  induction w with
  | zero =>
    intro text start out h
    exact sbwLoop_nonempty (fun t s o ho => by cases ho) text [] [] [] 0
      start out (by simp) h
  | succ w ih =>
    intro text start out h
    exact sbwLoop_nonempty (fun t s o ho => ih t s o ho) text [] [] [] 0
      start out (by simp) h

/-! ## Splitter invariant: token budget (under a subadditive tokenizer) -/

/-- If a (possibly truncated) count is at most `M`, the untruncated count
agrees with it and is at most `M`. -/
theorem tok_eq_of_count_le {tok : Tok} {M : Nat} {s : List Char}
    (h : get_token_count tok M s ≤ M) :
    tok s = get_token_count tok M s ∧ tok s ≤ M := by
  unfold get_token_count at h ⊢
  omega

/-- Loop invariant for the token budget, assuming the tokenizer is
subadditive (`tok (a ++ b) ≤ tok a + tok b`).  The accumulated state
satisfies: every emitted chunk's (truncated) count is within budget, and
the running `current_chunk_tokens` both bounds the true count of the
accumulated chunk text and stays within budget. -/
theorem sbwLoop_budget {tok : Tok} {M weight : Nat}
    {recurse : List Char → Nat → Except Err Chunks}
    (hsub : ∀ a b, tok (a ++ b) ≤ tok a + tok b)
    (hrec : ∀ t s out, recurse t s = Except.ok out →
      ∀ ch ∈ out, get_token_count tok M ch.2 ≤ M) :
    ∀ (rest pending : List Char) (chunks : Chunks) (cur : List Char)
      (curTok curStart : Nat) (out : Chunks),
      (∀ ch ∈ chunks, get_token_count tok M ch.2 ≤ M) →
      ((cur = [] ∧ curTok = 0) ∨ (tok cur ≤ curTok ∧ curTok ≤ M)) →
      sbwLoop tok M weight recurse rest pending chunks cur curTok
          curStart = Except.ok out →
      ∀ ch ∈ out, get_token_count tok M ch.2 ≤ M := by
  intro rest
  have hflush : ∀ (chunks : Chunks) (s : Nat) (cur : List Char)
      (curTok : Nat),
      (∀ ch ∈ chunks, get_token_count tok M ch.2 ≤ M) →
      ((cur = [] ∧ curTok = 0) ∨ (tok cur ≤ curTok ∧ curTok ≤ M)) →
      ∀ ch ∈ flushChunks chunks s cur, get_token_count tok M ch.2 ≤ M := by
    intro chunks s cur curTok hacc hcur ch hch
    rcases mem_flushChunks hch with hmem | ⟨hne, rfl⟩
    · exact hacc ch hmem
    · rcases hcur with ⟨rfl, _⟩ | ⟨h1, h2⟩
      · exact absurd rfl hne
      · show get_token_count tok M cur ≤ M
        unfold get_token_count
        omega
  induction rest with
  | nil =>
    intro pending chunks cur curTok curStart out hacc hcur h
    rw [sbwLoop_nil_eq] at h
    by_cases hp : pending = []
    · rw [if_pos hp] at h
      simp only [Except.ok.injEq] at h
      subst h
      exact hflush _ _ _ _ hacc hcur
    · rw [if_neg hp] at h
      by_cases haccT : curTok + get_token_count tok M pending ≤ M
      · rw [if_pos haccT] at h
        simp only [Except.ok.injEq] at h
        subst h
        intro ch hch
        rcases List.mem_append.mp hch with hmem | hmem
        · exact hacc ch hmem
        · simp only [List.mem_singleton] at hmem
          subst hmem
          have hpend := tok_eq_of_count_le
            (show get_token_count tok M pending ≤ M by omega)
          have hle : tok (cur ++ pending) ≤ curTok + tok pending := by
            rcases hcur with ⟨rfl, rfl⟩ | ⟨h1, h2⟩
            · simp
            · calc tok (cur ++ pending) ≤ tok cur + tok pending :=
                hsub cur pending
                _ ≤ curTok + tok pending := by omega
          show get_token_count tok M (cur ++ pending) ≤ M
          unfold get_token_count
          omega
      · rw [if_neg haccT] at h
        by_cases hrb : get_token_count tok M pending > M ∧ 0 < weight
        · rw [if_pos hrb] at h
          cases hr : recurse pending (flushStart curStart cur) with
          | error e => rw [hr] at h; cases h
          | ok sub =>
            rw [hr] at h
            simp only [Except.ok.injEq] at h
            subst h
            intro ch hch
            rcases List.mem_append.mp hch with hmem | hmem
            · exact hflush _ _ _ _ hacc hcur ch hmem
            · exact hrec _ _ _ hr ch hmem
        · rw [if_neg hrb] at h
          by_cases hle : get_token_count tok M pending ≤ M
          · rw [if_pos hle] at h
            simp only [Except.ok.injEq] at h
            subst h
            intro ch hch
            rcases List.mem_append.mp hch with hmem | hmem
            · exact hflush _ _ _ _ hacc hcur ch hmem
            · simp only [List.mem_singleton] at hmem
              subst hmem
              exact hle
          · rw [if_neg hle] at h; cases h
  | cons c rest ih =>
    intro pending chunks cur curTok curStart out hacc hcur h
    rw [sbwLoop_cons_eq] at h
    by_cases hw : get_weight c ≥ weight
    · rw [if_pos hw] at h
      by_cases haccT : curTok + get_token_count tok M (pending ++ [c]) ≤ M
      · rw [if_pos haccT] at h
        refine ih _ _ _ _ _ _ hacc ?_ h
        right
        have hseg := tok_eq_of_count_le
          (show get_token_count tok M (pending ++ [c]) ≤ M by omega)
        constructor
        · rcases hcur with ⟨rfl, rfl⟩ | ⟨h1, h2⟩
          · simpa using hseg.1.le
          · calc tok (cur ++ (pending ++ [c])) ≤
                tok cur + tok (pending ++ [c]) := hsub _ _
              _ ≤ curTok + get_token_count tok M (pending ++ [c]) := by
                omega
        · exact haccT
      · rw [if_neg haccT] at h
        by_cases hrb :
            get_token_count tok M (pending ++ [c]) > M ∧ 0 < weight
        · rw [if_pos hrb] at h
          cases hr : recurse (pending ++ [c]) (flushStart curStart cur) with
          | error e => rw [hr] at h; cases h
          | ok sub =>
            rw [hr] at h
            refine ih _ _ _ _ _ _ ?_ (Or.inl ⟨rfl, rfl⟩) h
            intro ch hch
            rcases List.mem_append.mp hch with hmem | hmem
            · exact hflush _ _ _ _ hacc hcur ch hmem
            · exact hrec _ _ _ hr ch hmem
        · rw [if_neg hrb] at h
          by_cases hle : get_token_count tok M (pending ++ [c]) ≤ M
          · rw [if_pos hle] at h
            refine ih _ _ _ _ _ _ (hflush _ _ _ _ hacc hcur) ?_ h
            right
            have hseg := tok_eq_of_count_le
              (show get_token_count tok M (pending ++ [c]) ≤ M from hle)
            exact ⟨hseg.1.le, hle⟩
          · rw [if_neg hle] at h; cases h
    · rw [if_neg hw] at h
      exact ih _ _ _ _ _ _ hacc hcur h

/-- Budget invariant of the splitter, under a subadditive tokenizer: every
returned chunk's token count is within `max_tokens`, at every weight
level. -/
theorem split_by_weight_budget {tok : Tok} {M : Nat}
    (hsub : ∀ a b, tok (a ++ b) ≤ tok a + tok b) :
    ∀ (w : Nat) (text : List Char) (start : Nat) (out : Chunks),
      split_by_weight tok M w text start = Except.ok out →
      ∀ ch ∈ out, get_token_count tok M ch.2 ≤ M := by
  intro w
  induction w with
  | zero =>
    intro text start out h
    exact sbwLoop_budget hsub (fun t s o ho => by cases ho) text [] [] []
      0 start out (by simp) (Or.inl ⟨rfl, rfl⟩) h
  | succ w ih =>
    intro text start out h
    exact sbwLoop_budget hsub (fun t s o ho => ih t s o ho) text [] [] []
      0 start out (by simp) (Or.inl ⟨rfl, rfl⟩) h

/-! ## Splitter error classification and success -/

/-- Loop invariant: the splitter loop only ever fails with the
cannot-split error (never with the configuration error). -/
theorem sbwLoop_error {tok : Tok} {M weight : Nat}
    {recurse : List Char → Nat → Except Err Chunks}
    (hrec : ∀ t s e, recurse t s = Except.error e → e = Err.unsplittable) :
    ∀ (rest pending : List Char) (chunks : Chunks) (cur : List Char)
      (curTok curStart : Nat) (e : Err),
      sbwLoop tok M weight recurse rest pending chunks cur curTok
          curStart = Except.error e →
      e = Err.unsplittable := by
  intro rest
  induction rest with
  | nil =>
    intro pending chunks cur curTok curStart e h
    rw [sbwLoop_nil_eq] at h
    by_cases hp : pending = []
    · rw [if_pos hp] at h; cases h
    · rw [if_neg hp] at h
      by_cases haccT : curTok + get_token_count tok M pending ≤ M
      · rw [if_pos haccT] at h; cases h
      · rw [if_neg haccT] at h
        by_cases hrb : get_token_count tok M pending > M ∧ 0 < weight
        · rw [if_pos hrb] at h
          cases hr : recurse pending (flushStart curStart cur) with
          | error e' =>
            rw [hr] at h
            cases h
            exact hrec _ _ _ hr
          | ok sub => rw [hr] at h; cases h
        · rw [if_neg hrb] at h
          by_cases hle : get_token_count tok M pending ≤ M
          · rw [if_pos hle] at h; cases h
          · rw [if_neg hle] at h
            cases h
            rfl
  | cons c rest ih =>
    intro pending chunks cur curTok curStart e h
    rw [sbwLoop_cons_eq] at h
    by_cases hw : get_weight c ≥ weight
    · rw [if_pos hw] at h
      by_cases haccT : curTok + get_token_count tok M (pending ++ [c]) ≤ M
      · rw [if_pos haccT] at h
        exact ih _ _ _ _ _ _ h
      · rw [if_neg haccT] at h
        by_cases hrb :
            get_token_count tok M (pending ++ [c]) > M ∧ 0 < weight
        · rw [if_pos hrb] at h
          cases hr : recurse (pending ++ [c]) (flushStart curStart cur) with
          | error e' =>
            rw [hr] at h
            cases h
            exact hrec _ _ _ hr
          | ok sub =>
            rw [hr] at h
            exact ih _ _ _ _ _ _ h
        · rw [if_neg hrb] at h
          by_cases hle : get_token_count tok M (pending ++ [c]) ≤ M
          · rw [if_pos hle] at h
            exact ih _ _ _ _ _ _ h
          · rw [if_neg hle] at h
            cases h
            rfl
    · rw [if_neg hw] at h
      exact ih _ _ _ _ _ _ h

/-- The splitter only ever fails with the cannot-split error. -/
theorem split_by_weight_error {tok : Tok} {M : Nat} :
    ∀ (w : Nat) (text : List Char) (start : Nat) (e : Err),
      split_by_weight tok M w text start = Except.error e →
      e = Err.unsplittable := by
  intro w
  induction w with
  | zero =>
    intro text start e h
    exact sbwLoop_error
      (fun t s e' he => by cases he; rfl) text [] [] [] 0 start e h
  | succ w ih =>
    intro text start e h
    exact sbwLoop_error (fun t s e' he => ih t s e' he) text [] [] [] 0
      start e h

/-- Loop invariant for success: if every single character of the remaining
text (and of the pending partial segment) fits the budget on its own, and
at weight `NONE` the pending segment is empty (which the scan maintains,
since at weight `NONE` every character is a separator), then the loop
succeeds. -/
theorem sbwLoop_ok {tok : Tok} {M weight : Nat}
    {recurse : List Char → Nat → Except Err Chunks}
    (hrec : 0 < weight → ∀ t s,
      (∀ c ∈ t, get_token_count tok M [c] ≤ M) →
      ∃ out, recurse t s = Except.ok out) :
    ∀ (rest pending : List Char) (chunks : Chunks) (cur : List Char)
      (curTok curStart : Nat),
      (∀ c ∈ pending, get_token_count tok M [c] ≤ M) →
      (∀ c ∈ rest, get_token_count tok M [c] ≤ M) →
      (weight = 0 → pending = []) →
      ∃ out, sbwLoop tok M weight recurse rest pending chunks cur curTok
        curStart = Except.ok out := by
  intro rest
  induction rest with
  | nil =>
    intro pending chunks cur curTok curStart hpend hrest hp0
    rw [sbwLoop_nil_eq]
    by_cases hp : pending = []
    · rw [if_pos hp]
      exact ⟨_, rfl⟩
    · rw [if_neg hp]
      by_cases haccT : curTok + get_token_count tok M pending ≤ M
      · rw [if_pos haccT]
        exact ⟨_, rfl⟩
      · rw [if_neg haccT]
        by_cases hrb : get_token_count tok M pending > M ∧ 0 < weight
        · rw [if_pos hrb]
          obtain ⟨sub, hr⟩ := hrec hrb.2 pending
            (flushStart curStart cur) hpend
          rw [hr]
          exact ⟨_, rfl⟩
        · rw [if_neg hrb]
          have hle : get_token_count tok M pending ≤ M := by
            by_contra hgt
            push_neg at hgt
            rcases Nat.eq_zero_or_pos weight with h0 | hpos
            · exact hp (hp0 h0)
            · exact hrb ⟨hgt, hpos⟩
          rw [if_pos hle]
          exact ⟨_, rfl⟩
  | cons c rest ih =>
    intro pending chunks cur curTok curStart hpend hrest hp0
    have hc : get_token_count tok M [c] ≤ M := hrest c (by simp)
    have hrest' : ∀ c' ∈ rest, get_token_count tok M [c'] ≤ M :=
      fun c' hc' => hrest c' (by simp [hc'])
    rw [sbwLoop_cons_eq]
    by_cases hw : get_weight c ≥ weight
    · rw [if_pos hw]
      by_cases haccT : curTok + get_token_count tok M (pending ++ [c]) ≤ M
      · rw [if_pos haccT]
        exact ih _ _ _ _ _ (by simp) hrest' (fun _ => rfl)
      · rw [if_neg haccT]
        by_cases hrb :
            get_token_count tok M (pending ++ [c]) > M ∧ 0 < weight
        · rw [if_pos hrb]
          obtain ⟨sub, hr⟩ := hrec hrb.2 (pending ++ [c])
            (flushStart curStart cur)
            (by
              intro c' hc'
              rcases List.mem_append.mp hc' with hm | hm
              · exact hpend c' hm
              · simp only [List.mem_singleton] at hm
                subst hm
                exact hc)
          rw [hr]
          exact ih _ _ _ _ _ (by simp) hrest' (fun _ => rfl)
        · rw [if_neg hrb]
          have hle : get_token_count tok M (pending ++ [c]) ≤ M := by
            by_contra hgt
            push_neg at hgt
            rcases Nat.eq_zero_or_pos weight with h0 | hpos
            · have : pending = [] := hp0 h0
              subst this
              simpa using absurd hgt (by simpa using Nat.not_lt.mpr hc)
            · exact hrb ⟨hgt, hpos⟩
          rw [if_pos hle]
          exact ih _ _ _ _ _ (by simp) hrest' (fun _ => rfl)
    · rw [if_neg hw]
      refine ih _ _ _ _ _ ?_ hrest' ?_
      · intro c' hc'
        rcases List.mem_append.mp hc' with hm | hm
        · exact hpend c' hm
        · simp only [List.mem_singleton] at hm
          subst hm
          exact hc
      · intro h0
        subst h0
        exact absurd (Nat.zero_le _) hw

/-- Success of the splitter whenever every single character of the input
fits the budget on its own: no `UnsplittableSegmentError` is raised,
because at weight `NONE` every single character is an acceptable
segment. -/
theorem split_by_weight_ok {tok : Tok} {M : Nat} :
    ∀ (w : Nat) (text : List Char) (start : Nat),
      (∀ c ∈ text, get_token_count tok M [c] ≤ M) →
      ∃ out, split_by_weight tok M w text start = Except.ok out := by
  intro w
  induction w with
  | zero =>
    intro text start hgood
    exact sbwLoop_ok (fun h0 => absurd h0 (by simp)) text [] [] [] 0 start
      (by simp) hgood (fun _ => rfl)
  | succ w ih =>
    intro text start hgood
    exact sbwLoop_ok (fun _ t s hg => ih t s hg) text [] [] [] 0 start
      (by simp) hgood (by simp)

/-! ## Optimizer lemmas -/

theorem bestSplitGo_succ_eq (tok : Tok) (M : Nat) (cur next : List Char)
    (j : Nat) (best : Option Nat) (bestW : Int) :
    bestSplitGo tok M cur next (j + 1) best bestW =
      if (get_weight (cur.getD (j + 1) 'a') : Int) > bestW then
        if j + 2 ≤ cur.length then
          if validSplit tok M cur next (j + 2) then
            bestSplitGo tok M cur next j (some (j + 2))
              (get_weight (cur.getD (j + 1) 'a'))
          else bestSplitGo tok M cur next j best bestW
        else bestSplitGo tok M cur next j best bestW
      else bestSplitGo tok M cur next j best bestW := rfl

/-- Unpacking the two budget checks of a valid redistribution split. -/
theorem validSplit_iff {tok : Tok} {M : Nat} {cur next : List Char}
    {p : Nat} :
    validSplit tok M cur next p = true ↔
      get_token_count tok M (cur.take p) ≤ M ∧
      get_token_count tok M (cur.drop p ++ next) ≤ M := by
  unfold validSplit
  simp

/-- Soundness of the backward redistribution scan: a returned position is a
valid split position in `[2, len cur]`. -/
theorem bestSplitGo_some {tok : Tok} {M : Nat} {cur next : List Char} :
    ∀ (n : Nat) (best : Option Nat) (bestW : Int) {p : Nat},
      (∀ q, best = some q →
        validSplit tok M cur next q = true ∧ 2 ≤ q ∧ q ≤ cur.length) →
      bestSplitGo tok M cur next n best bestW = some p →
      validSplit tok M cur next p = true ∧ 2 ≤ p ∧ p ≤ cur.length := by
  intro n
  induction n with
  | zero =>
    intro best bestW p hbest h
    exact hbest p h
  | succ j ih =>
    intro best bestW p hbest h
    rw [bestSplitGo_succ_eq] at h
    by_cases hcw : (get_weight (cur.getD (j + 1) 'a') : Int) > bestW
    · rw [if_pos hcw] at h
      by_cases hlen : j + 2 ≤ cur.length
      · rw [if_pos hlen] at h
        by_cases hv : validSplit tok M cur next (j + 2) = true
        · rw [if_pos hv] at h
          refine ih _ _ ?_ h
          intro q hq
          simp only [Option.some.injEq] at hq
          subst hq
          exact ⟨hv, by omega, hlen⟩
        · rw [if_neg hv] at h
          exact ih _ _ hbest h
      · rw [if_neg hlen] at h
        exact ih _ _ hbest h
    · rw [if_neg hcw] at h
      exact ih _ _ hbest h

theorem bestSplit_some {tok : Tok} {M : Nat} {cur next : List Char}
    {p : Nat} (h : bestSplit tok M cur next = some p) :
    validSplit tok M cur next p = true ∧ 2 ≤ p ∧ p ≤ cur.length :=
  bestSplitGo_some _ none (-1) (fun q hq => by cases hq) h

/-- `optLoop` with zero fuel is the identity. -/
theorem optLoop_zero (tok : Tok) (M : Nat) (cs : Chunks) :
    optLoop tok M 0 cs = cs := by
  match cs with
  | [] => rfl
  | [c] => rfl
  | a :: b :: tl => rfl

theorem optLoop_cons2_eq (tok : Tok) (M : Nat) (fuel s1 s2 : Nat)
    (t1 t2 : List Char) (tl : Chunks) :
    optLoop tok M (fuel + 1) ((s1, t1) :: (s2, t2) :: tl) =
      if get_token_count tok M (t1 ++ t2) ≤ M then
        (s1, t1 ++ t2) :: optLoop tok M fuel tl
      else
        match bestSplit tok M t1 t2 with
        | some p =>
          (s1, t1.take p) ::
            optLoop tok M fuel ((s1 + p, t1.drop p ++ t2) :: tl)
        | none => (s1, t1) :: optLoop tok M fuel ((s2, t2) :: tl) := rfl

/-- The optimizer loop preserves the concatenation of chunk texts. -/
theorem optLoop_concat (tok : Tok) (M : Nat) :
    ∀ (fuel : Nat) (cs : Chunks),
      concatTexts (optLoop tok M fuel cs) = concatTexts cs := by
  intro fuel
  induction fuel with
  | zero => intro cs; rw [optLoop_zero]
  | succ fuel ih =>
    intro cs
    match cs with
    | [] => rfl
    | [c] => rfl
    | (s1, t1) :: (s2, t2) :: tl =>
      rw [optLoop_cons2_eq]
      by_cases hm : get_token_count tok M (t1 ++ t2) ≤ M
      · rw [if_pos hm]
        simp [concatTexts, ih, List.append_assoc]
      · rw [if_neg hm]
        cases hb : bestSplit tok M t1 t2 with
        | some p =>
          simp only [concatTexts, ih, List.append_assoc]
          rw [← List.append_assoc (t1.take p) (t1.drop p),
            List.take_append_drop]
        | none => simp [concatTexts, ih]

/-- The optimizer loop preserves contiguity. -/
theorem optLoop_chain (tok : Tok) (M : Nat) :
    ∀ (fuel : Nat) (b : Nat) (cs : Chunks),
      chainFrom b cs = true → chainFrom b (optLoop tok M fuel cs) = true := by
  intro fuel
  induction fuel with
  | zero => intro b cs h; rwa [optLoop_zero]
  | succ fuel ih =>
    intro b cs h
    match cs with
    | [] => exact h
    | [c] => exact h
    | (s1, t1) :: (s2, t2) :: tl =>
      simp only [chainFrom, Bool.and_eq_true, beq_iff_eq] at h
      obtain ⟨hb, hs2, htl⟩ := h
      rw [optLoop_cons2_eq]
      by_cases hm : get_token_count tok M (t1 ++ t2) ≤ M
      · rw [if_pos hm]
        simp only [chainFrom, Bool.and_eq_true, beq_iff_eq]
        refine ⟨hb, ih _ tl ?_⟩
        have : s1 + (t1 ++ t2).length = s2 + t2.length := by
          simp [List.length_append]; omega
        rw [this]
        exact htl
      · rw [if_neg hm]
        cases hbs : bestSplit tok M t1 t2 with
        | some p =>
          obtain ⟨hv, hp2, hple⟩ := bestSplit_some hbs
          simp only [chainFrom, Bool.and_eq_true, beq_iff_eq]
          refine ⟨hb, ?_⟩
          have hlen : (t1.take p).length = p := by
            simp [List.length_take]; omega
          rw [hlen]
          refine ih _ _ ?_
          simp only [chainFrom, Bool.and_eq_true, beq_iff_eq]
          refine ⟨trivial, ?_⟩
          have : s1 + p + (t1.drop p ++ t2).length = s2 + t2.length := by
            simp [List.length_append, List.length_drop]; omega
          rw [this]
          exact htl
        | none =>
          simp only [chainFrom, Bool.and_eq_true, beq_iff_eq]
          refine ⟨hb, ih _ _ ?_⟩
          simp only [chainFrom, Bool.and_eq_true, beq_iff_eq]
          exact ⟨hs2, htl⟩

/-- The optimizer loop preserves the token budget: both the merge and the
redistribution check the budget of every text they create, and untouched
chunks keep their input bound. -/
theorem optLoop_budget (tok : Tok) (M : Nat) :
    ∀ (fuel : Nat) (cs : Chunks),
      (∀ ch ∈ cs, get_token_count tok M ch.2 ≤ M) →
      ∀ ch ∈ optLoop tok M fuel cs, get_token_count tok M ch.2 ≤ M := by
  intro fuel
  induction fuel with
  | zero => intro cs h; rwa [optLoop_zero]
  | succ fuel ih =>
    intro cs h
    match cs with
    | [] => exact h
    | [c] => exact h
    | (s1, t1) :: (s2, t2) :: tl =>
      have htl : ∀ ch ∈ tl, get_token_count tok M ch.2 ≤ M :=
        fun ch hch => h ch (by simp [hch])
      rw [optLoop_cons2_eq]
      by_cases hm : get_token_count tok M (t1 ++ t2) ≤ M
      · rw [if_pos hm]
        intro ch hch
        rcases List.mem_cons.mp hch with rfl | hmem
        · exact hm
        · exact ih tl htl ch hmem
      · rw [if_neg hm]
        cases hbs : bestSplit tok M t1 t2 with
        | some p =>
          obtain ⟨hv, hp2, hple⟩ := bestSplit_some hbs
          obtain ⟨hv1, hv2⟩ := validSplit_iff.mp hv
          intro ch hch
          rcases List.mem_cons.mp hch with rfl | hmem
          · exact hv1
          · refine ih _ ?_ ch hmem
            intro ch' hch'
            rcases List.mem_cons.mp hch' with rfl | hmem'
            · exact hv2
            · exact htl ch' hmem'
        | none =>
          intro ch hch
          rcases List.mem_cons.mp hch with rfl | hmem
          · exact h (s1, t1) (by simp)
          · refine ih _ ?_ ch hmem
            intro ch' hch'
            rcases List.mem_cons.mp hch' with rfl | hmem'
            · exact h (s2, t2) (by simp)
            · exact htl ch' hmem'

/-- The optimizer loop preserves nonemptiness of chunk texts. -/
theorem optLoop_nonempty (tok : Tok) (M : Nat) :
    ∀ (fuel : Nat) (cs : Chunks),
      (∀ ch ∈ cs, ch.2 ≠ []) →
      ∀ ch ∈ optLoop tok M fuel cs, ch.2 ≠ [] := by
  intro fuel
  induction fuel with
  | zero => intro cs h; rwa [optLoop_zero]
  | succ fuel ih =>
    intro cs h
    match cs with
    | [] => exact h
    | [c] => exact h
    | (s1, t1) :: (s2, t2) :: tl =>
      have ht1 : t1 ≠ [] := h (s1, t1) (by simp)
      have ht2 : t2 ≠ [] := h (s2, t2) (by simp)
      have htl : ∀ ch ∈ tl, ch.2 ≠ [] := fun ch hch => h ch (by simp [hch])
      rw [optLoop_cons2_eq]
      by_cases hm : get_token_count tok M (t1 ++ t2) ≤ M
      · rw [if_pos hm]
        intro ch hch
        rcases List.mem_cons.mp hch with rfl | hmem
        · simp [ht2]
        · exact ih tl htl ch hmem
      · rw [if_neg hm]
        cases hbs : bestSplit tok M t1 t2 with
        | some p =>
          obtain ⟨hv, hp2, hple⟩ := bestSplit_some hbs
          intro ch hch
          rcases List.mem_cons.mp hch with rfl | hmem
          · show t1.take p ≠ []
            simp only [ne_eq, List.take_eq_nil_iff]
            push_neg
            exact ⟨by omega, ht1⟩
          · refine ih _ ?_ ch hmem
            intro ch' hch'
            rcases List.mem_cons.mp hch' with rfl | hmem'
            · simp [ht2]
            · exact htl ch' hmem'
        | none =>
          intro ch hch
          rcases List.mem_cons.mp hch with rfl | hmem
          · exact ht1
          · refine ih _ ?_ ch hmem
            intro ch' hch'
            rcases List.mem_cons.mp hch' with rfl | hmem'
            · exact ht2
            · exact htl ch' hmem'

theorem optimize_chunks_eq (tok : Tok) (M : Nat) (cs : Chunks) :
    optimize_chunks tok M cs =
      if cs.length ≤ 1 then cs
      else
        match (optLoop tok M cs.length cs).getLast? with
        | some c =>
          if pyStripEmpty c.2 then (optLoop tok M cs.length cs).dropLast
          else optLoop tok M cs.length cs
        | none => optLoop tok M cs.length cs := rfl

/-- Losslessness of the optimizer, up to the final pop: there is a
whitespace-only (possibly empty) suffix `d` such that the output texts
followed by `d` concatenate to the input texts. -/
theorem optimize_chunks_concat (tok : Tok) (M : Nat) (cs : Chunks) :
    ∃ d, pyStripEmpty d = true ∧
      concatTexts (optimize_chunks tok M cs) ++ d = concatTexts cs := by
  by_cases hlen : cs.length ≤ 1
  · rw [optimize_chunks_eq, if_pos hlen]
    exact ⟨[], rfl, by simp⟩
  · have hco := optLoop_concat tok M cs.length cs
    cases ho : (optLoop tok M cs.length cs).getLast? with
    | none =>
      have hred : optimize_chunks tok M cs = optLoop tok M cs.length cs := by
        rw [optimize_chunks_eq, if_neg hlen, ho]
      exact ⟨[], rfl, by simp [hred, hco]⟩
    | some c =>
      by_cases hstrip : pyStripEmpty c.2 = true
      · have hred : optimize_chunks tok M cs =
            (optLoop tok M cs.length cs).dropLast := by
          rw [optimize_chunks_eq, if_neg hlen, ho]
          exact if_pos hstrip
        have hne : optLoop tok M cs.length cs ≠ [] := by
          intro hnil
          rw [hnil] at ho
          cases ho
        have hlast : (optLoop tok M cs.length cs).getLast hne = c := by
          have := List.getLast?_eq_getLast (optLoop tok M cs.length cs) hne
          rw [this] at ho
          exact (Option.some.injEq _ _).mp ho
        refine ⟨c.2, hstrip, ?_⟩
        rw [hred]
        have hdec : (optLoop tok M cs.length cs).dropLast ++ [c] =
            optLoop tok M cs.length cs := by
          rw [← hlast]
          exact List.dropLast_append_getLast hne
        calc concatTexts (optLoop tok M cs.length cs).dropLast ++ c.2
            = concatTexts ((optLoop tok M cs.length cs).dropLast ++ [c]) := by
              simp [concatTexts_append, concatTexts]
          _ = concatTexts (optLoop tok M cs.length cs) := by rw [hdec]
          _ = concatTexts cs := hco
      · have hred : optimize_chunks tok M cs =
            optLoop tok M cs.length cs := by
          rw [optimize_chunks_eq, if_neg hlen, ho]
          exact if_neg hstrip
        exact ⟨[], rfl, by simp [hred, hco]⟩

/-- The optimizer preserves contiguity. -/
theorem optimize_chunks_chain (tok : Tok) (M : Nat) {b : Nat} {cs : Chunks}
    (h : chainFrom b cs = true) :
    chainFrom b (optimize_chunks tok M cs) = true := by
  by_cases hlen : cs.length ≤ 1
  · rw [optimize_chunks_eq, if_pos hlen]
    exact h
  · have hch := optLoop_chain tok M cs.length b cs h
    cases ho : (optLoop tok M cs.length cs).getLast? with
    | none =>
      have hred : optimize_chunks tok M cs = optLoop tok M cs.length cs := by
        rw [optimize_chunks_eq, if_neg hlen, ho]
      rw [hred]
      exact hch
    | some c =>
      by_cases hstrip : pyStripEmpty c.2 = true
      · have hred : optimize_chunks tok M cs =
            (optLoop tok M cs.length cs).dropLast := by
          rw [optimize_chunks_eq, if_neg hlen, ho]
          exact if_pos hstrip
        rw [hred]
        have hne : optLoop tok M cs.length cs ≠ [] := by
          intro hnil
          rw [hnil] at ho
          cases ho
        have hdec : (optLoop tok M cs.length cs).dropLast ++
            [(optLoop tok M cs.length cs).getLast hne] =
            optLoop tok M cs.length cs :=
          List.dropLast_append_getLast hne
        have h2 : chainFrom b ((optLoop tok M cs.length cs).dropLast ++
            [(optLoop tok M cs.length cs).getLast hne]) = true := by
          rwa [hdec]
        exact chainFrom_of_append h2
      · have hred : optimize_chunks tok M cs =
            optLoop tok M cs.length cs := by
          rw [optimize_chunks_eq, if_neg hlen, ho]
          exact if_neg hstrip
        rw [hred]
        exact hch

/-- The optimizer preserves the token budget. -/
theorem optimize_chunks_budget (tok : Tok) (M : Nat) {cs : Chunks}
    (h : ∀ ch ∈ cs, get_token_count tok M ch.2 ≤ M) :
    ∀ ch ∈ optimize_chunks tok M cs, get_token_count tok M ch.2 ≤ M := by
  by_cases hlen : cs.length ≤ 1
  · rw [optimize_chunks_eq, if_pos hlen]
    exact h
  · have hb := optLoop_budget tok M cs.length cs h
    cases ho : (optLoop tok M cs.length cs).getLast? with
    | none =>
      have hred : optimize_chunks tok M cs = optLoop tok M cs.length cs := by
        rw [optimize_chunks_eq, if_neg hlen, ho]
      rw [hred]
      exact hb
    | some c =>
      by_cases hstrip : pyStripEmpty c.2 = true
      · have hred : optimize_chunks tok M cs =
            (optLoop tok M cs.length cs).dropLast := by
          rw [optimize_chunks_eq, if_neg hlen, ho]
          exact if_pos hstrip
        rw [hred]
        intro ch hch
        exact hb ch (List.dropLast_sublist _ |>.subset hch)
      · have hred : optimize_chunks tok M cs =
            optLoop tok M cs.length cs := by
          rw [optimize_chunks_eq, if_neg hlen, ho]
          exact if_neg hstrip
        rw [hred]
        exact hb

/-- The optimizer preserves nonemptiness of chunk texts. -/
theorem optimize_chunks_nonempty (tok : Tok) (M : Nat) {cs : Chunks}
    (h : ∀ ch ∈ cs, ch.2 ≠ []) :
    ∀ ch ∈ optimize_chunks tok M cs, ch.2 ≠ [] := by
  by_cases hlen : cs.length ≤ 1
  · rw [optimize_chunks_eq, if_pos hlen]
    exact h
  · have hb := optLoop_nonempty tok M cs.length cs h
    cases ho : (optLoop tok M cs.length cs).getLast? with
    | none =>
      have hred : optimize_chunks tok M cs = optLoop tok M cs.length cs := by
        rw [optimize_chunks_eq, if_neg hlen, ho]
      rw [hred]
      exact hb
    | some c =>
      by_cases hstrip : pyStripEmpty c.2 = true
      · have hred : optimize_chunks tok M cs =
            (optLoop tok M cs.length cs).dropLast := by
          rw [optimize_chunks_eq, if_neg hlen, ho]
          exact if_pos hstrip
        rw [hred]
        intro ch hch
        exact hb ch (List.dropLast_sublist _ |>.subset hch)
      · have hred : optimize_chunks tok M cs =
            optLoop tok M cs.length cs := by
          rw [optimize_chunks_eq, if_neg hlen, ho]
          exact if_neg hstrip
        rw [hred]
        exact hb

/-! ## Top-level wrapper lemmas -/

/-- Decomposition of a successful top-level call: `max_tokens` is positive,
the splitter succeeded, and the result is the optimizer applied to the
splitter's output. -/
theorem split_text_ok_elim {tok : Tok} {mt : Int} {text : List Char}
    {cs : Chunks}
    (h : split_text_into_chunks tok mt text = Except.ok cs) :
    0 < mt ∧ ∃ out,
      split_by_weight tok mt.toNat PARAGRAPH_SEPARATOR_WEIGHT text 0 =
        Except.ok out ∧
      cs = optimize_chunks tok mt.toNat out := by
  unfold split_text_into_chunks at h
  by_cases hmt : mt ≤ 0
  · rw [if_pos hmt] at h; cases h
  · rw [if_neg hmt] at h
    have h2 : (match split_by_weight tok mt.toNat
        PARAGRAPH_SEPARATOR_WEIGHT text 0 with
      | Except.error e => Except.error e
      | Except.ok chunks =>
        Except.ok (optimize_chunks tok mt.toNat chunks)) =
        Except.ok cs := h
    cases hsw : split_by_weight tok mt.toNat PARAGRAPH_SEPARATOR_WEIGHT
        text 0 with
    | error e => rw [hsw] at h2; cases h2
    | ok out =>
      rw [hsw] at h2
      simp only [Except.ok.injEq] at h2
      exact ⟨by omega, out, rfl, h2.symm⟩

/-- On success, there is a whitespace-only (possibly empty) suffix `d` such
that the returned chunk texts followed by `d` concatenate to the input. -/
theorem split_text_concat {tok : Tok} {mt : Int} {text : List Char}
    {cs : Chunks}
    (h : split_text_into_chunks tok mt text = Except.ok cs) :
    ∃ d, pyStripEmpty d = true ∧ concatTexts cs ++ d = text := by
  obtain ⟨hmt, out, hsw, rfl⟩ := split_text_ok_elim h
  obtain ⟨d, hd1, hd2⟩ := optimize_chunks_concat tok mt.toNat out
  exact ⟨d, hd1, by
    rw [hd2, split_by_weight_concat PARAGRAPH_SEPARATOR_WEIGHT text 0 out
      hsw]⟩

/-- On success, the returned chunks are contiguous from offset 0. -/
theorem split_text_chain {tok : Tok} {mt : Int} {text : List Char}
    {cs : Chunks}
    (h : split_text_into_chunks tok mt text = Except.ok cs) :
    chainFrom 0 cs = true := by
  obtain ⟨hmt, out, hsw, rfl⟩ := split_text_ok_elim h
  exact optimize_chunks_chain tok mt.toNat
    (split_by_weight_chain PARAGRAPH_SEPARATOR_WEIGHT text 0 out hsw)

/-- On success, every returned chunk has nonempty text. -/
theorem split_text_nonempty {tok : Tok} {mt : Int} {text : List Char}
    {cs : Chunks}
    (h : split_text_into_chunks tok mt text = Except.ok cs) :
    ∀ ch ∈ cs, ch.2 ≠ [] := by
  obtain ⟨hmt, out, hsw, rfl⟩ := split_text_ok_elim h
  exact optimize_chunks_nonempty tok mt.toNat
    (split_by_weight_nonempty PARAGRAPH_SEPARATOR_WEIGHT text 0 out hsw)

/-- On success, under a subadditive tokenizer every returned chunk's token
count is within the budget. -/
theorem split_text_budget {tok : Tok} {mt : Int} {text : List Char}
    {cs : Chunks} (hsub : ∀ a b, tok (a ++ b) ≤ tok a + tok b)
    (h : split_text_into_chunks tok mt text = Except.ok cs) :
    ∀ ch ∈ cs, get_token_count tok mt.toNat ch.2 ≤ mt.toNat := by
  obtain ⟨hmt, out, hsw, rfl⟩ := split_text_ok_elim h
  exact optimize_chunks_budget tok mt.toNat
    (split_by_weight_budget hsub PARAGRAPH_SEPARATOR_WEIGHT text 0 out hsw)

/-! ## Weight `NONE` failure -/

/-- At weight `NONE` the scan keeps the pending segment empty, so every
candidate segment is a single character; the loop fails with the
cannot-split error as soon as it reaches a character whose own token count
exceeds the budget. -/
theorem sbwLoop_zero_error {tok : Tok} {M : Nat}
    {recurse : List Char → Nat → Except Err Chunks} :
    ∀ (rest : List Char) (chunks : Chunks) (cur : List Char)
      (curTok curStart : Nat),
      (∃ c ∈ rest, M < get_token_count tok M [c]) →
      sbwLoop tok M 0 recurse rest [] chunks cur curTok curStart =
        Except.error Err.unsplittable := by
  intro rest
  induction rest with
  | nil =>
    intro chunks cur curTok curStart hex
    simp at hex
  | cons c rest ih =>
    intro chunks cur curTok curStart hex
    rw [sbwLoop_cons_eq]
    rw [if_pos (Nat.zero_le _)]
    simp only [List.nil_append]
    by_cases hbig : M < get_token_count tok M [c]
    · rw [if_neg (by omega)]
      rw [if_neg (by simp)]
      rw [if_neg (by omega)]
    · have hc : get_token_count tok M [c] ≤ M := by omega
      have hex' : ∃ c' ∈ rest, M < get_token_count tok M [c'] := by
        rcases hex with ⟨c', hc', hbig'⟩
        rcases List.mem_cons.mp hc' with rfl | hmem
        · omega
        · exact ⟨c', hmem, hbig'⟩
      by_cases hacc : curTok + get_token_count tok M [c] ≤ M
      · rw [if_pos hacc]
        exact ih _ _ _ _ hex'
      · rw [if_neg hacc]
        rw [if_neg (by simp)]
        rw [if_pos hc]
        exact ih _ _ _ _ hex'

/-- At the `NONE` weight level, the splitter fails with the cannot-split
error whenever some single character of the text exceeds the budget on its
own. -/
theorem split_by_weight_zero_error {tok : Tok} {M : Nat}
    {text : List Char} {start : Nat}
    (hex : ∃ c ∈ text, M < get_token_count tok M [c]) :
    split_by_weight tok M NO_WEIGHT text start =
      Except.error Err.unsplittable :=
  sbwLoop_zero_error text [] [] 0 start hex

/-! ## Configuration-error classification -/

/-- The top-level call returns the configuration error exactly for
non-positive `max_tokens`; with positive `max_tokens` this error can never
be produced (the splitter's only failure is the cannot-split error, and the
check precedes all tokenization). -/
theorem split_text_config_iff (tok : Tok) (mt : Int) (text : List Char) :
    split_text_into_chunks tok mt text = Except.error Err.configuration ↔
      mt ≤ 0 := by
  constructor
  · intro h
    by_contra hmt
    unfold split_text_into_chunks at h
    rw [if_neg hmt] at h
    have h2 : (match split_by_weight tok mt.toNat
        PARAGRAPH_SEPARATOR_WEIGHT text 0 with
      | Except.error e => Except.error e
      | Except.ok chunks =>
        Except.ok (optimize_chunks tok mt.toNat chunks)) =
        Except.error Err.configuration := h
    cases hsw : split_by_weight tok mt.toNat PARAGRAPH_SEPARATOR_WEIGHT
        text 0 with
    | error e =>
      rw [hsw] at h2
      simp only [Except.error.injEq] at h2
      have := split_by_weight_error PARAGRAPH_SEPARATOR_WEIGHT text 0 e hsw
      rw [h2] at this
      cases this
    | ok out => rw [hsw] at h2; cases h2
  · intro h
    unfold split_text_into_chunks
    rw [if_pos h]

/-! ## Fueled splitter equals the splitter (bounded recursion depth) -/

theorem sbwLoopF_nil_eq (tok : Tok) (M weight : Nat)
    (recurse : List Char → Nat → Option (Except Err Chunks))
    (pending : List Char) (chunks : Chunks) (cur : List Char)
    (curTok curStart : Nat) :
    sbwLoopF tok M weight recurse [] pending chunks cur curTok curStart =
      if pending = [] then
        some (Except.ok (flushChunks chunks curStart cur))
      else if curTok + get_token_count tok M pending ≤ M then
        some (Except.ok (chunks ++ [(curStart, cur ++ pending)]))
      else if get_token_count tok M pending > M ∧ 0 < weight then
        match recurse pending (flushStart curStart cur) with
        | none => none
        | some (Except.error e) => some (Except.error e)
        | some (Except.ok sub) =>
          some (Except.ok (flushChunks chunks curStart cur ++ sub))
      else if get_token_count tok M pending ≤ M then
        some (Except.ok (flushChunks chunks curStart cur ++
          [(flushStart curStart cur, pending)]))
      else some (Except.error Err.unsplittable) := rfl

theorem sbwLoopF_cons_eq (tok : Tok) (M weight : Nat)
    (recurse : List Char → Nat → Option (Except Err Chunks))
    (c : Char) (rest pending : List Char) (chunks : Chunks)
    (cur : List Char) (curTok curStart : Nat) :
    sbwLoopF tok M weight recurse (c :: rest) pending chunks cur curTok
        curStart =
      if get_weight c ≥ weight then
        if curTok + get_token_count tok M (pending ++ [c]) ≤ M then
          sbwLoopF tok M weight recurse rest [] chunks
            (cur ++ (pending ++ [c]))
            (curTok + get_token_count tok M (pending ++ [c])) curStart
        else if get_token_count tok M (pending ++ [c]) > M ∧ 0 < weight then
          match recurse (pending ++ [c]) (flushStart curStart cur) with
          | none => none
          | some (Except.error e) => some (Except.error e)
          | some (Except.ok sub) =>
            sbwLoopF tok M weight recurse rest []
              (flushChunks chunks curStart cur ++ sub) [] 0
              (flushStart curStart cur + (pending ++ [c]).length)
        else if get_token_count tok M (pending ++ [c]) ≤ M then
          sbwLoopF tok M weight recurse rest []
            (flushChunks chunks curStart cur) (pending ++ [c])
            (get_token_count tok M (pending ++ [c]))
            (flushStart curStart cur)
        else some (Except.error Err.unsplittable)
      else
        sbwLoopF tok M weight recurse rest (pending ++ [c]) chunks cur
          curTok curStart := rfl

/-- If the fueled lower-weight splitter agrees with the unfueled one
(whenever it can be invoked, i.e. at positive weight), the fueled loop
agrees with the unfueled loop. -/
theorem sbwLoopF_eq {tok : Tok} {M weight : Nat}
    {rf : List Char → Nat → Option (Except Err Chunks)}
    {re : List Char → Nat → Except Err Chunks}
    (hrec : 0 < weight → ∀ t s, rf t s = some (re t s)) :
    ∀ (rest pending : List Char) (chunks : Chunks) (cur : List Char)
      (curTok curStart : Nat),
      sbwLoopF tok M weight rf rest pending chunks cur curTok curStart =
        some (sbwLoop tok M weight re rest pending chunks cur curTok
          curStart) := by
  intro rest
  induction rest with
  | nil =>
    intro pending chunks cur curTok curStart
    rw [sbwLoopF_nil_eq, sbwLoop_nil_eq]
    by_cases hp : pending = []
    · rw [if_pos hp, if_pos hp]
    · rw [if_neg hp, if_neg hp]
      by_cases hacc : curTok + get_token_count tok M pending ≤ M
      · rw [if_pos hacc, if_pos hacc]
      · rw [if_neg hacc, if_neg hacc]
        by_cases hrb : get_token_count tok M pending > M ∧ 0 < weight
        · rw [if_pos hrb, if_pos hrb]
          rw [hrec hrb.2 pending (flushStart curStart cur)]
          cases re pending (flushStart curStart cur) with
          | error e => rfl
          | ok sub => rfl
        · rw [if_neg hrb, if_neg hrb]
          by_cases hle : get_token_count tok M pending ≤ M
          · rw [if_pos hle, if_pos hle]
          · rw [if_neg hle, if_neg hle]
  | cons c rest ih =>
    intro pending chunks cur curTok curStart
    rw [sbwLoopF_cons_eq, sbwLoop_cons_eq]
    by_cases hw : get_weight c ≥ weight
    · rw [if_pos hw, if_pos hw]
      by_cases hacc : curTok + get_token_count tok M (pending ++ [c]) ≤ M
      · rw [if_pos hacc, if_pos hacc]
        exact ih _ _ _ _ _
      · rw [if_neg hacc, if_neg hacc]
        by_cases hrb :
            get_token_count tok M (pending ++ [c]) > M ∧ 0 < weight
        · rw [if_pos hrb, if_pos hrb]
          rw [hrec hrb.2 (pending ++ [c]) (flushStart curStart cur)]
          cases re (pending ++ [c]) (flushStart curStart cur) with
          | error e => rfl
          | ok sub => exact ih _ _ _ _ _
        · rw [if_neg hrb, if_neg hrb]
          by_cases hle : get_token_count tok M (pending ++ [c]) ≤ M
          · rw [if_pos hle, if_pos hle]
            exact ih _ _ _ _ _
          · rw [if_neg hle, if_neg hle]
    · rw [if_neg hw, if_neg hw]
      exact ih _ _ _ _ _

/-- Recursion-depth bound of the splitter: with any fuel strictly greater
than the starting weight level, the fueled splitter never exhausts its fuel
and computes exactly `split_by_weight`.  (Each nested recursion decreases
the weight level by exactly one and only occurs at positive weight, so the
depth is bounded by `weight + 1` levels.) -/
theorem split_by_weight_fuel_eq {tok : Tok} {M : Nat} :
    ∀ (fuel w : Nat), w < fuel → ∀ (text : List Char) (start : Nat),
      split_by_weight_fuel tok M fuel w text start =
        some (split_by_weight tok M w text start) := by
  intro fuel
  induction fuel with
  | zero => intro w hw; omega
  | succ fuel ih =>
    intro w hw text start
    cases w with
    | zero =>
      exact sbwLoopF_eq (fun h0 => absurd h0 (by simp)) text [] [] [] 0
        start
    | succ v =>
      exact sbwLoopF_eq (fun _ t s => ih v (by omega) t s) text [] [] [] 0
        start

/-! ## Characterization of the backward redistribution scan -/

/-- Main invariant argument for the backward scan: carrying a candidate
that dominates all valid positions already scanned, the scan returns a
position dominating every valid position in `[2, len cur]`, and returns
`none` only if no valid position exists in that range. -/
theorem bestSplitGo_char {tok : Tok} {M : Nat} {cur next : List Char} :
    ∀ (n : Nat) (best : Option Nat) (bestW : Int),
      (∀ p₀, best = some p₀ →
        validSplit tok M cur next p₀ = true ∧ 2 ≤ p₀ ∧ p₀ ≤ cur.length ∧
        n + 2 ≤ p₀ ∧
        ((get_weight (cur.getD (p₀ - 1) 'a') : Int) = bestW)) →
      (best = none → bestW = -1) →
      (∀ q, n + 2 ≤ q → q ≤ cur.length →
        validSplit tok M cur next q = true →
        ∃ p₀, best = some p₀ ∧ splitLe cur q p₀) →
      (∀ p, bestSplitGo tok M cur next n best bestW = some p →
        ∀ q, 2 ≤ q → q ≤ cur.length →
          validSplit tok M cur next q = true → splitLe cur q p) ∧
      (bestSplitGo tok M cur next n best bestW = none →
        ∀ q, 2 ≤ q → q ≤ cur.length →
          validSplit tok M cur next q = true → False) := by
  intro n
  induction n with
  | zero =>
    intro best bestW hsome hnone hdom
    constructor
    · intro p hp q hq2 hqlen hqv
      obtain ⟨p₀, hp₀, hle⟩ := hdom q (by omega) hqlen hqv
      rw [show bestSplitGo tok M cur next 0 best bestW = best from rfl]
        at hp
      rw [hp] at hp₀
      simp only [Option.some.injEq] at hp₀
      rw [hp₀]
      exact hle
    · intro hp q hq2 hqlen hqv
      rw [show bestSplitGo tok M cur next 0 best bestW = best from rfl]
        at hp
      obtain ⟨p₀, hp₀, _⟩ := hdom q (by omega) hqlen hqv
      rw [hp] at hp₀
      cases hp₀
  | succ m ih =>
    intro best bestW hsome hnone hdom
    rw [bestSplitGo_succ_eq]
    by_cases hcw : (get_weight (cur.getD (m + 1) 'a') : Int) > bestW
    · rw [if_pos hcw]
      by_cases hlen : m + 2 ≤ cur.length
      · rw [if_pos hlen]
        by_cases hv : validSplit tok M cur next (m + 2) = true
        · rw [if_pos hv]
          refine ih (some (m + 2)) _ ?_ ?_ ?_
          · intro p₀ hp₀
            simp only [Option.some.injEq] at hp₀
            subst hp₀
            exact ⟨hv, by omega, hlen, by omega, by norm_num⟩
          · intro hc; cases hc
          · intro q hq hqlen hqv
            refine ⟨m + 2, rfl, ?_⟩
            by_cases hq' : q = m + 2
            · subst hq'
              exact Or.inr ⟨rfl, le_refl _⟩
            · obtain ⟨p₀, hp₀, hle⟩ := hdom q (by omega) hqlen hqv
              obtain ⟨_, _, _, _, hw₀⟩ := hsome p₀ hp₀
              left
              show get_weight (cur.getD (q - 1) 'a') <
                get_weight (cur.getD (m + 2 - 1) 'a')
              have hqw : (get_weight (cur.getD (q - 1) 'a') : Int) ≤
                  bestW := by
                rcases hle with hlt | ⟨heq, _⟩
                · rw [← hw₀]; exact_mod_cast hlt.le
                · rw [← hw₀]; exact_mod_cast heq.le
              have : (m + 2) - 1 = m + 1 := by omega
              rw [this]
              omega
        · rw [if_neg hv]
          refine ih best bestW ?_ hnone ?_
          · intro p₀ hp₀
            obtain ⟨h1, h2, h3, h4, h5⟩ := hsome p₀ hp₀
            exact ⟨h1, h2, h3, by omega, h5⟩
          · intro q hq hqlen hqv
            by_cases hq' : q = m + 2
            · subst hq'
              exact absurd hqv hv
            · exact hdom q (by omega) hqlen hqv
      · rw [if_neg hlen]
        refine ih best bestW ?_ hnone ?_
        · intro p₀ hp₀
          obtain ⟨h1, h2, h3, h4, h5⟩ := hsome p₀ hp₀
          exact ⟨h1, h2, h3, by omega, h5⟩
        · intro q hq hqlen hqv
          by_cases hq' : q = m + 2
          · omega
          · exact hdom q (by omega) hqlen hqv
    · rw [if_neg hcw]
      refine ih best bestW ?_ hnone ?_
      · intro p₀ hp₀
        obtain ⟨h1, h2, h3, h4, h5⟩ := hsome p₀ hp₀
        exact ⟨h1, h2, h3, by omega, h5⟩
      · intro q hq hqlen hqv
        by_cases hq' : q = m + 2
        · subst hq'
          cases hbest : best with
          | none =>
            have hbw := hnone hbest
            rw [hbw] at hcw
            have : (0 : Int) ≤ (get_weight (cur.getD (m + 1) 'a') : Int) :=
              Int.ofNat_nonneg _
            omega
          | some p₀ =>
            obtain ⟨h1, h2, h3, h4, h5⟩ := hsome p₀ hbest
            refine ⟨p₀, rfl, ?_⟩
            have hle : (get_weight (cur.getD (m + 1) 'a') : Int) ≤
                (get_weight (cur.getD (p₀ - 1) 'a') : Int) := by omega
            have hle' : get_weight (cur.getD (m + 1) 'a') ≤
                get_weight (cur.getD (p₀ - 1) 'a') := by exact_mod_cast hle
            have hq1 : (m + 2) - 1 = m + 1 := by omega
            rcases Nat.lt_or_ge (get_weight (cur.getD (m + 1) 'a'))
                (get_weight (cur.getD (p₀ - 1) 'a')) with hlt | hge
            · left
              rw [hq1]
              exact hlt
            · right
              rw [hq1]
              exact ⟨le_antisymm hle' hge, by omega⟩
        · exact hdom q (by omega) hqlen hqv

/-- Characterization of `bestSplit`: a returned position dominates every
valid position in `[2, len cur]`; `none` means there is no valid position
in that range. -/
theorem bestSplit_char {tok : Tok} {M : Nat} {cur next : List Char} :
    (∀ p, bestSplit tok M cur next = some p →
      ∀ q, 2 ≤ q → q ≤ cur.length →
        validSplit tok M cur next q = true → splitLe cur q p) ∧
    (bestSplit tok M cur next = none →
      ∀ q, 2 ≤ q → q ≤ cur.length →
        validSplit tok M cur next q = true → False) := by
  refine bestSplitGo_char (cur.length - 1) none (-1) ?_ (fun _ => rfl) ?_
  · intro p₀ hp₀; cases hp₀
  · intro q hq hqlen hqv
    omega

/-! ## Scan-trace helpers -/

/-- Characters below the current weight level are only accumulated into the
pending segment by the scan. -/
theorem sbwLoop_skip {tok : Tok} {M weight : Nat}
    {recurse : List Char → Nat → Except Err Chunks} :
    ∀ (xs : List Char), (∀ c ∈ xs, get_weight c < weight) →
      ∀ (rest pending : List Char) (chunks : Chunks) (cur : List Char)
        (curTok curStart : Nat),
        sbwLoop tok M weight recurse (xs ++ rest) pending chunks cur curTok
            curStart =
          sbwLoop tok M weight recurse rest (pending ++ xs) chunks cur
            curTok curStart := by
  intro xs
  induction xs with
  | nil =>
    intro hxs rest pending chunks cur curTok curStart
    simp
  | cons c xs ih =>
    intro hxs rest pending chunks cur curTok curStart
    have hc : get_weight c < weight := hxs c (by simp)
    rw [List.cons_append, sbwLoop_cons_eq, if_neg (by omega)]
    rw [ih (fun c' hc' => hxs c' (by simp [hc'])) rest (pending ++ [c])]
    simp

/-- Every separator weight is at most `PARAGRAPH_SEPARATOR_WEIGHT`. -/
theorem get_weight_le_four (c : Char) : get_weight c ≤ 4 := by
  unfold get_weight
  dsimp only
  split_ifs <;>
    simp [PARAGRAPH_SEPARATOR_WEIGHT, SENTENCE_TERMINATOR_WEIGHT,
      OTHER_PUNCTUATION_WEIGHT, SPACE_WEIGHT, NO_WEIGHT]

/-- Once the recorded best weight is at least every character weight, the
backward scan never updates its candidate. -/
theorem bestSplitGo_ge {tok : Tok} {M : Nat} {cur next : List Char}
    {bestW : Int} (hW : (4 : Int) ≤ bestW) :
    ∀ (n : Nat) (best : Option Nat),
      bestSplitGo tok M cur next n best bestW = best := by
  intro n
  induction n with
  | zero => intro best; rfl
  | succ j ih =>
    intro best
    rw [bestSplitGo_succ_eq]
    have := get_weight_le_four (cur.getD (j + 1) 'a')
    rw [if_neg (by omega)]
    exact ih best


/-- For positive `max_tokens` the top-level call is the splitter followed
by the optimizer. -/
theorem split_text_pos_eq {tok : Tok} {mt : Int} (h : 0 < mt)
    (text : List Char) :
    split_text_into_chunks tok mt text =
      (match split_by_weight tok mt.toNat PARAGRAPH_SEPARATOR_WEIGHT
          text 0 with
      | Except.error e => Except.error e
      | Except.ok chunks =>
        Except.ok (optimize_chunks tok mt.toNat chunks)) :=
  if_neg (not_le.mpr h)

/-- Variant of `sbwLoop_skip` consuming the whole remaining text. -/
theorem sbwLoop_skip_all {tok : Tok} {M weight : Nat}
    {recurse : List Char → Nat → Except Err Chunks}
    (xs : List Char) (hxs : ∀ c ∈ xs, get_weight c < weight)
    (pending : List Char) (chunks : Chunks) (cur : List Char)
    (curTok curStart : Nat) :
    sbwLoop tok M weight recurse xs pending chunks cur curTok curStart =
      sbwLoop tok M weight recurse [] (pending ++ xs) chunks cur curTok
        curStart := by
  have := @sbwLoop_skip tok M weight recurse xs hxs []
    pending chunks cur curTok curStart
  simpa using this

theorem split_by_weight_four_eq (tok : Tok) (M : Nat) (text : List Char)
    (start : Nat) :
    split_by_weight tok M PARAGRAPH_SEPARATOR_WEIGHT text start =
      sbwLoop tok M 4 (split_by_weight tok M 3) text [] [] [] 0 start :=
  rfl

/-- Splitting a text made of a run without paragraph separators, one
paragraph separator, and a second run without paragraph separators: when
the first run (with its separator) and the second run each fit the budget
but their counts together exceed it (and the whole text's untruncated count
exceeds it as well), the returned boundary is exactly at the paragraph
separator — after the splitter and still after the optimizer. -/
theorem split_text_paragraph_boundary {tok : Tok} {M : Nat}
    {A B : List Char} {nl : Char}
    (hM : 1 ≤ M)
    (hnl : get_weight nl = 4)
    (hA : ∀ c ∈ A, get_weight c < 4)
    (hB : ∀ c ∈ B, get_weight c < 4)
    (hfit1 : get_token_count tok M (A ++ [nl]) ≤ M)
    (hfit2 : get_token_count tok M B ≤ M)
    (hbig : M <
      get_token_count tok M (A ++ [nl]) + get_token_count tok M B)
    (hwhole : M < tok (A ++ ([nl] ++ B)))
    (hBne : B ≠ [])
    (hBnw : pyStripEmpty B = false) :
    split_text_into_chunks tok (M : Int) (A ++ [nl] ++ B) =
      Except.ok [(0, A ++ [nl]), (A.length + 1, B)] := by
  have hMpos : (0 : Int) < (M : Int) := by exact_mod_cast hM
  have htn : ((M : Int)).toNat = M := by omega
  have hcur_ne : A ++ [nl] ≠ [] := by simp
  have hsw : split_by_weight tok M PARAGRAPH_SEPARATOR_WEIGHT
      (A ++ [nl] ++ B) 0 =
      Except.ok [(0, A ++ [nl]), (A.length + 1, B)] := by
    rw [split_by_weight_four_eq]
    rw [List.append_assoc]
    rw [sbwLoop_skip A hA ([nl] ++ B) [] [] [] 0 0]
    simp only [List.nil_append, List.singleton_append]
    rw [sbwLoop_cons_eq]
    rw [if_pos (show get_weight nl ≥ 4 by simp [hnl])]
    rw [if_pos (show 0 + get_token_count tok M (A ++ [nl]) ≤ M by
      simpa using hfit1)]
    rw [sbwLoop_skip_all B hB]
    simp only [List.nil_append, Nat.zero_add]
    rw [sbwLoop_nil_eq]
    rw [if_neg hBne]
    rw [if_neg (by omega)]
    rw [if_neg (by omega)]
    rw [if_pos hfit2]
    unfold flushChunks flushStart
    rw [if_neg hcur_ne, if_neg hcur_ne]
    simp [List.length_append]
  have hmerge : ¬ get_token_count tok M ((A ++ [nl]) ++ B) ≤ M := by
    rw [List.append_assoc]
    unfold get_token_count
    omega
  have htake : (A ++ [nl]).take (A.length + 1) = A ++ [nl] :=
    List.take_of_length_le (by simp)
  have hdrop : (A ++ [nl]).drop (A.length + 1) = [] :=
    List.drop_eq_nil_of_le (by simp)
  have hvalid : validSplit tok M (A ++ [nl]) B (A.length + 1) = true := by
    unfold validSplit
    rw [htake, hdrop]
    simp [hfit1, hfit2]
  have hbs : bestSplit tok M (A ++ [nl]) B = none ∨
      bestSplit tok M (A ++ [nl]) B = some (A.length + 1) := by
    cases hA0 : A with
    | nil => left; rfl
    | cons a A' =>
      right
      unfold bestSplit
      rw [show ((a :: A') ++ [nl]).length - 1 = A'.length + 1 from by simp]
      rw [bestSplitGo_succ_eq]
      have hgd : ((a :: A') ++ [nl]).getD (A'.length + 1) 'a' = nl := by
        rw [List.getD_append_right (a :: A') [nl] 'a' (A'.length + 1)
          (by simp)]
        simp
      rw [hgd, hnl]
      rw [if_pos (by norm_num)]
      rw [if_pos (by simp [List.length_append])]
      have hv' : validSplit tok M ((a :: A') ++ [nl]) B
          (A'.length + 1 + 1) = true := by
        have hvv := hvalid
        rw [hA0] at hvv
        simpa using hvv
      rw [if_pos (by simpa using hv')]
      rw [bestSplitGo_ge (by norm_num)]
      simp
  have hloop : optLoop tok M (1 + 1) [(0, A ++ [nl]), (A.length + 1, B)] =
      [(0, A ++ [nl]), (A.length + 1, B)] := by
    rw [optLoop_cons2_eq]
    rw [if_neg hmerge]
    rcases hbs with hbs | hbs
    · rw [hbs]
      rfl
    · rw [hbs]
      show ((0 : Nat), (A ++ [nl]).take (A.length + 1)) ::
          optLoop tok M 1
            [(0 + (A.length + 1), (A ++ [nl]).drop (A.length + 1) ++ B)] =
          [(0, A ++ [nl]), (A.length + 1, B)]
      rw [htake, hdrop]
      rw [show optLoop tok M 1
          [(0 + (A.length + 1), ([] : List Char) ++ B)] =
          [(0 + (A.length + 1), ([] : List Char) ++ B)] from rfl]
      simp
  have hopt : optimize_chunks tok M [(0, A ++ [nl]), (A.length + 1, B)] =
      [(0, A ++ [nl]), (A.length + 1, B)] := by
    rw [optimize_chunks_eq]
    rw [if_neg (by simp)]
    rw [show List.length [((0 : Nat), A ++ [nl]), (A.length + 1, B)] =
      1 + 1 from rfl]
    rw [hloop]
    rw [show ([((0 : Nat), A ++ [nl]), (A.length + 1, B)] : Chunks).getLast? =
      some (A.length + 1, B) from rfl]
    show (if pyStripEmpty (A.length + 1, B).2 = true then
        List.dropLast [((0 : Nat), A ++ [nl]), (A.length + 1, B)]
      else [((0 : Nat), A ++ [nl]), (A.length + 1, B)]) =
      [((0 : Nat), A ++ [nl]), (A.length + 1, B)]
    rw [if_neg (by simp [hBnw])]
  rw [split_text_pos_eq hMpos, htn, hsw]
  show Except.ok (optimize_chunks tok M
    [(0, A ++ [nl]), (A.length + 1, B)]) = _
  rw [hopt]

/-! ## Claim theorems -/

/-- C1, counterexample: for the input `"a\n"` with `max_tokens = 1` and a
one-token-per-character tokenizer, the call returns normally but the
optimizer's final pop drops the trailing whitespace-only chunk `"\n"`, so
concatenating the returned chunk texts does not reproduce the input. -/
theorem claim_C1_counterexample :
    split_text_into_chunks lenTok 1 ['a', '\n'] =
      Except.ok [(0, ['a'])] ∧
    concatTexts [(0, ['a'])] ≠ ['a', '\n'] :=
  ⟨rfl, by decide⟩

/-- C1 (amended): for every input text and every `max_tokens` for which
`split_text_into_chunks` returns normally, concatenating the text fields of
the returned chunks in order reproduces the original input exactly, except
that a trailing whitespace-only suffix (the final chunk popped by the
optimizer) may be missing: there is a whitespace-only (possibly empty)
suffix `d` with `concat ++ d = text`.  No characters are otherwise added,
dropped, reordered, or normalized. -/
theorem claim_C1_losslessness_up_to_whitespace_pop {tok : Tok} {mt : Int}
    {text : List Char} {cs : Chunks}
    (h : split_text_into_chunks tok mt text = Except.ok cs) :
    ∃ d, pyStripEmpty d = true ∧ concatTexts cs ++ d = text :=
  split_text_concat h

/-- C1, witness at the concrete input `"a\n"`, `max_tokens = 1`. -/
theorem claim_C1_witness :
    split_text_into_chunks lenTok 1 ['a', '\n'] =
      Except.ok [(0, ['a'])] ∧
    ∃ d, pyStripEmpty d = true ∧
      concatTexts [(0, ['a'])] ++ d = ['a', '\n'] :=
  ⟨rfl, @claim_C1_losslessness_up_to_whitespace_pop lenTok 1
    ['a', '\n'] [(0, ['a'])] rfl⟩

/-- C2, counterexample: with the deterministic tokenizer `tokAB` (which
counts `"ab"` as 3 tokens but `"a"`, `"b"` as 1 each) and
`max_tokens = 2`, the call returns the single chunk `"ab"` whose full-text
token count is 3 > 2: the splitter only bounds the SUM of the accepted
segments' counts, which for a non-subadditive tokenizer does not bound the
count of the joined chunk text. -/
theorem claim_C2_counterexample :
    split_text_into_chunks tokAB 2 ['a', 'b'] =
      Except.ok [(0, ['a', 'b'])] ∧
    2 < get_token_count tokAB 2 ['a', 'b'] :=
  ⟨rfl, by decide⟩

/-- C2 (amended): assuming additionally that the tokenizer is subadditive
(`tok (a ++ b) ≤ tok a + tok b`, true of counts that at most lose special
tokens on concatenation), every chunk returned by a normal call has token
count at most `max_tokens` — the splitter's output and the optimizer's
output both satisfy the budget. -/
theorem claim_C2_budget_subadditive {tok : Tok} {M : Nat}
    {text : List Char} {cs : Chunks} (hM : 0 < M)
    (hsub : ∀ a b, tok (a ++ b) ≤ tok a + tok b)
    (h : split_text_into_chunks tok (M : Int) text = Except.ok cs) :
    ∀ ch ∈ cs, get_token_count tok M ch.2 ≤ M := by
  have := split_text_budget hsub h
  have htn : ((M : Int)).toNat = M := by omega
  rwa [htn] at this

/-- C2, witness at the concrete input `"a\n"`, `max_tokens = 1`, with the
(additive, hence subadditive) one-token-per-character tokenizer: the
returned chunk `"a"` is within budget. -/
theorem claim_C2_witness :
    get_token_count lenTok 1 ['a'] ≤ 1 :=
  @claim_C2_budget_subadditive lenTok 1 ['a', '\n'] [(0, ['a'])]
    (by decide) (fun a b => by simp [lenTok]) rfl (0, ['a']) (by decide)

/-- C3: for every successful call, the returned chunks are contiguous from
offset 0 — the first chunk's start offset is 0 and each chunk starts where
the previous one ends (`chainFrom`) — and the start offsets are strictly
increasing.  This holds through recursion and optimizer redistribution. -/
theorem claim_C3_contiguity {tok : Tok} {mt : Int} {text : List Char}
    {cs : Chunks}
    (h : split_text_into_chunks tok mt text = Except.ok cs) :
    chainFrom 0 cs = true ∧ cs.Pairwise (fun x y => x.1 < y.1) :=
  ⟨split_text_chain h,
    chain_pairwise (split_text_chain h) (split_text_nonempty h)⟩

/-- C3, witness at the concrete input `"a\n"`, `max_tokens = 1`. -/
theorem claim_C3_witness :
    chainFrom 0 [((0 : Nat), ['a'])] = true ∧
    ([((0 : Nat), ['a'])] : Chunks).Pairwise (fun x y => x.1 < y.1) :=
  @claim_C3_contiguity lenTok 1 ['a', '\n'] [(0, ['a'])] rfl

/-- C4: at the `NONE` weight level every candidate segment is a single
character, and as soon as the scan reaches a character whose own token
count exceeds `max_tokens`, `split_by_weight` fails immediately with the
cannot-split error (the spec's `UnsplittableSegmentError`); the `Except`
error carries no chunk list, so no partial result is returned for the
failed call. -/
theorem claim_C4_unsplittable_at_none {tok : Tok} {M : Nat}
    {text : List Char} {start : Nat}
    (hex : ∃ c ∈ text, M < get_token_count tok M [c]) :
    split_by_weight tok M NO_WEIGHT text start =
      Except.error Err.unsplittable :=
  split_by_weight_zero_error hex

/-- C4, witness: a tokenizer charging 3 tokens per character and
`max_tokens = 2` make the single character `'a'` unsplittable. -/
theorem claim_C4_witness :
    split_by_weight bigTok 2 NO_WEIGHT ['a'] 0 =
      Except.error Err.unsplittable :=
  claim_C4_unsplittable_at_none (by decide)

/-- C5: for an input of 500 repeated `'a'` characters (no separators) and
every `max_tokens` in `[1, 500)` — too small to cover the run in one chunk
under the one-token-per-character tokenizer — the call succeeds and
returns at least two chunks, each within the token budget.  (The chunks
are produced at the `NONE` weight level, single characters always being
splittable there.) -/
theorem claim_C5_unbroken_run {M : Nat} (h1 : 1 ≤ M) (h2 : M < 500) :
    ∃ cs, split_text_into_chunks lenTok (M : Int)
        (List.replicate 500 'a') = Except.ok cs ∧
      2 ≤ cs.length ∧ ∀ ch ∈ cs, get_token_count lenTok M ch.2 ≤ M := by
  have hMpos : (0 : Int) < (M : Int) := by exact_mod_cast h1
  have htn : ((M : Int)).toNat = M := by omega
  have hgood : ∀ c ∈ List.replicate 500 'a',
      get_token_count lenTok M [c] ≤ M := by
    intro c hc
    show min (List.length [c]) (M + 1) ≤ M
    simp only [List.length_singleton]
    omega
  obtain ⟨out, hsw⟩ := split_by_weight_ok PARAGRAPH_SEPARATOR_WEIGHT
    (List.replicate 500 'a') 0 hgood
  have hok : split_text_into_chunks lenTok (M : Int)
      (List.replicate 500 'a') =
      Except.ok (optimize_chunks lenTok M out) := by
    rw [split_text_pos_eq hMpos, htn, hsw]
  have hbud := split_text_budget (fun a b => by simp [lenTok]) hok
  rw [htn] at hbud
  refine ⟨optimize_chunks lenTok M out, hok, ?_, hbud⟩
  obtain ⟨d, hd1, hd2⟩ := split_text_concat hok
  have hdnil : d = [] := by
    cases d with
    | nil => rfl
    | cons x d' =>
      exfalso
      have hx : x ∈ concatTexts (optimize_chunks lenTok M out) ++
          x :: d' := by simp
      rw [hd2] at hx
      have hxa : x = 'a' := List.eq_of_mem_replicate hx
      subst hxa
      have hsp : isPySpace 'a' = true := by
        simp only [pyStripEmpty, List.all_cons, Bool.and_eq_true] at hd1
        exact hd1.1
      exact absurd hsp (by decide)
  subst hdnil
  rw [List.append_nil] at hd2
  have hmain : ∀ cs : Chunks,
      concatTexts cs = List.replicate 500 'a' →
      (∀ ch ∈ cs, get_token_count lenTok M ch.2 ≤ M) →
      2 ≤ cs.length := by
    intro cs hc hb
    rcases cs with _ | ⟨ch, _ | ⟨ch2, tl⟩⟩
    · exfalso
      have := congrArg List.length hc
      simp only [concatTexts, List.length_nil, List.length_replicate]
        at this
      omega
    · exfalso
      have hch : ch.2 ++ [] = List.replicate 500 'a' := by
        simpa only [concatTexts] using hc
      rw [List.append_nil] at hch
      have hlen : ch.2.length = 500 := by
        rw [hch, List.length_replicate]
      have hb1 := hb ch (by simp)
      have hb2 : min (ch.2.length) (M + 1) ≤ M := hb1
      rw [hlen] at hb2
      omega
    · simp only [List.length_cons]
      omega
  exact hmain _ hd2 hbud

/-- C5, witness at `max_tokens = 100`. -/
theorem claim_C5_witness :
    ∃ cs, split_text_into_chunks lenTok ((100 : Nat) : Int)
        (List.replicate 500 'a') = Except.ok cs ∧
      2 ≤ cs.length ∧
      ∀ ch ∈ cs, get_token_count lenTok 100 ch.2 ≤ 100 :=
  claim_C5_unbroken_run (by decide) (by decide)

/-- C6: `split_text_into_chunks` fails with the configuration error
(`ValueError` for a non-positive `max_tokens`, the spec's
`ConfigurationError`) exactly when `max_tokens ≤ 0`; for positive
`max_tokens` this error is never produced.  The check precedes any use of
the tokenizer: the error is identical for every tokenizer `tok`. -/
theorem claim_C6_configuration_error (tok : Tok) (mt : Int)
    (text : List Char) :
    split_text_into_chunks tok mt text =
        Except.error Err.configuration ↔
      mt ≤ 0 :=
  split_text_config_iff tok mt text

/-- C6, witness at `max_tokens = -1`. -/
theorem claim_C6_witness :
    split_text_into_chunks lenTok (-1) ['a'] =
      Except.error Err.configuration :=
  (claim_C6_configuration_error lenTok (-1) ['a']).mpr (by decide)

/-- C7, counterexample: with the deterministic tokenizer `tokABC` and
`max_tokens = 2`, the adjacent chunks `"ab"` and `"c"` cannot be merged
(combined count 3 > 2), and split position 1 is valid (`"a"` and `"bc"`
both fit the budget), yet the optimizer leaves chunk `"ab"` unchanged: the
backward scan `range(len - 1, 0, -1)` never considers position `p = 1`, so
the claim's "among all valid p" and "if no valid p exists, chunk i is left
unchanged" are false as stated. -/
theorem claim_C7_counterexample :
    2 < get_token_count tokABC 2 (['a', 'b'] ++ ['c']) ∧
    validSplit tokABC 2 ['a', 'b'] ['c'] 1 = true ∧
    optimize_chunks tokABC 2 [(0, ['a', 'b']), (2, ['c'])] =
      [(0, ['a', 'b']), (2, ['c'])] :=
  ⟨by decide, by decide, rfl⟩

/-- C7 (amended): the redistribution scan considers exactly the split
positions `p ∈ [2, len]` (i.e. `p = j + 1` for character indices
`j = len-1, ..., 1`; a split leaving only the first character's worth at
position 1 is never considered, and `p = len` — a no-op split — is).  When
it returns a position, that position is valid (both pieces within budget)
and dominates every valid position in `[2, len]` first by separator weight
and then by closeness to the end (`splitLe`); when it returns none — and
only then is chunk `i` left unchanged — no valid position exists in
`[2, len]`. -/
theorem claim_C7_redistribution_choice {tok : Tok} {M : Nat}
    {cur next : List Char} :
    (∀ p, bestSplit tok M cur next = some p →
      validSplit tok M cur next p = true ∧ 2 ≤ p ∧ p ≤ cur.length ∧
      ∀ q, 2 ≤ q → q ≤ cur.length →
        validSplit tok M cur next q = true → splitLe cur q p) ∧
    (bestSplit tok M cur next = none →
      ∀ q, 2 ≤ q → q ≤ cur.length →
        validSplit tok M cur next q = true → False) := by
  constructor
  · intro p hp
    obtain ⟨hv, h2, hle⟩ := bestSplit_some hp
    exact ⟨hv, h2, hle, bestSplit_char.1 p hp⟩
  · exact bestSplit_char.2

/-- C7, witness: on chunk texts `"x.y"` / `"z"` with budget 3 the scan
returns position 2 (after the sentence terminator), which is valid and in
particular dominates the valid position 3. -/
theorem claim_C7_witness :
    validSplit lenTok 3 ['x', '.', 'y'] ['z'] 2 = true ∧
    splitLe ['x', '.', 'y'] 3 2 :=
  ⟨((@claim_C7_redistribution_choice lenTok 3 ['x', '.', 'y']
      ['z']).1 2 rfl).1,
    ((@claim_C7_redistribution_choice lenTok 3 ['x', '.', 'y']
      ['z']).1 2 rfl).2.2.2 3 (by decide) (by decide) (by decide)⟩

/-- C8: for an input mixing a paragraph break, sentence terminators and
spaces — text `A ++ [nl] ++ B` with `nl` the only paragraph-weight
character, a sentence terminator and a space occurring in `A`, and a
token-feasible sentence-level split available — where the paragraph-level
split is token-feasible (`A ++ [nl]` and `B` each fit the budget) but the
whole text is not, the returned boundary is at the paragraph break: the
result is exactly the two chunks `A ++ [nl]` and `B`. -/
theorem claim_C8_weight_preference {tok : Tok} {M : Nat}
    {A B : List Char} {nl : Char}
    (hM : 1 ≤ M)
    (hnl : get_weight nl = PARAGRAPH_SEPARATOR_WEIGHT)
    (hA : ∀ c ∈ A, get_weight c < PARAGRAPH_SEPARATOR_WEIGHT)
    (hB : ∀ c ∈ B, get_weight c < PARAGRAPH_SEPARATOR_WEIGHT)
    (_hsterm : ∃ c ∈ A, get_weight c = SENTENCE_TERMINATOR_WEIGHT)
    (_hspace : ∃ c ∈ A, get_weight c = SPACE_WEIGHT)
    (_hsent : ∃ i, i < A.length ∧
      get_weight (A.getD i 'a') = SENTENCE_TERMINATOR_WEIGHT ∧
      get_token_count tok M ((A ++ [nl] ++ B).take (i + 1)) ≤ M ∧
      get_token_count tok M ((A ++ [nl] ++ B).drop (i + 1)) ≤ M)
    (hfit1 : get_token_count tok M (A ++ [nl]) ≤ M)
    (hfit2 : get_token_count tok M B ≤ M)
    (hbig : M <
      get_token_count tok M (A ++ [nl]) + get_token_count tok M B)
    (hwhole : M < tok (A ++ [nl] ++ B))
    (hBne : B ≠ [])
    (hBnw : pyStripEmpty B = false) :
    split_text_into_chunks tok (M : Int) (A ++ [nl] ++ B) =
      Except.ok [(0, A ++ [nl]), (A.length + 1, B)] :=
  split_text_paragraph_boundary hM hnl hA hB hfit1 hfit2 hbig
    (by rw [← List.append_assoc]; exact hwhole) hBne hBnw

/-- C8, witness at the concrete input `"Hi. x\nbye"` with budget 8. -/
theorem claim_C8_witness :
    split_text_into_chunks lenTok ((8 : Nat) : Int)
        (['H', 'i', '.', ' ', 'x'] ++ ['\n'] ++ ['b', 'y', 'e']) =
      Except.ok [(0, ['H', 'i', '.', ' ', 'x'] ++ ['\n']),
        ((['H', 'i', '.', ' ', 'x'] : List Char).length + 1,
          ['b', 'y', 'e'])] :=
  claim_C8_weight_preference (by decide) (by decide) (by decide)
    (by decide) (by decide) (by decide)
    ⟨2, by decide, by decide, by decide, by decide⟩
    (by decide) (by decide) (by decide) (by decide) (by decide) (by decide)

/-- C9: the splitter terminates with recursion depth bounded by the number
of weight levels: the depth-fueled variant, which spends one unit of fuel
on each descent to the next-lower weight level (descents happen only while
the level is above `NONE`, each decreasing the level by exactly one), never
exhausts any fuel exceeding the starting weight and computes exactly
`split_by_weight`; from the top level (`PARAGRAPH`, 4), fuel 5 suffices.
The scanning loop itself advances strictly through the text (it is a
structural recursion on the unscanned suffix). -/
theorem claim_C9_bounded_recursion_depth (tok : Tok) (M : Nat) :
    ∀ (fuel w : Nat), w < fuel → ∀ (text : List Char) (start : Nat),
      split_by_weight_fuel tok M fuel w text start =
        some (split_by_weight tok M w text start) :=
  fun fuel w hw => split_by_weight_fuel_eq fuel w hw

/-- C9, witness: fuel 5 suffices from the top weight level on `"a\n"`. -/
theorem claim_C9_witness :
    split_by_weight_fuel lenTok 1 5 PARAGRAPH_SEPARATOR_WEIGHT
        ['a', '\n'] 0 =
      some (split_by_weight lenTok 1 PARAGRAPH_SEPARATOR_WEIGHT
        ['a', '\n'] 0) :=
  claim_C9_bounded_recursion_depth lenTok 1 5 PARAGRAPH_SEPARATOR_WEIGHT
    (by decide) ['a', '\n'] 0

/-- C10: for the empty input text and every positive `max_tokens`, the call
returns the empty chunk list — not a single chunk with empty text — for
every tokenizer (the result does not depend on `tok`, reflecting that the
tokenizer is never consulted: the scan has nothing to scan and the
optimizer returns a short list unchanged). -/
theorem claim_C10_empty_input {tok : Tok} {mt : Int} (h : 0 < mt) :
    split_text_into_chunks tok mt [] = Except.ok [] := by
  rw [split_text_pos_eq h]
  rfl

/-- C10, witness at `max_tokens = 3` with the concrete tokenizer. -/
theorem claim_C10_witness :
    split_text_into_chunks lenTok 3 [] = Except.ok [] :=
  claim_C10_empty_input (by decide)

end TextSplitterV4
